import Mathlib

/-!
# WordUnscrambler: a shallow embedding of `unscrambler.cpp`

The program keeps a dictionary in a hash table of `TABLE_SIZE` chained buckets.  A word is
stored in the bucket numbered by the sum of its characters; a query is sorted with an
insertion sort and compared with the sorted form of every word of its bucket.

Modelling conventions, all read off the source:

* A `std::string` is a finite sequence of bytes (`Str`); it may contain NUL bytes.
  `s[i]` is the byte at `i`, and `'\0'` at `i = s.size()` (`charAt`).  Every loop of the
  form `for (i = 0; s[i]; i++)` therefore stops at the first NUL byte or at the end.
* Whether `char` is signed is left to the C++ implementation.  The flag `sg` says so:
  `sg = true` is a signed `char` (x86 GCC, Clang, MSVC), `sg = false` an unsigned one.
  `charVal sg c` is the value a `char` holding the byte `c` has in an expression.
* `int` is 32 bits wide; `wrapInt` is the two's complement result of an `int` addition.
  `%` on `int` truncates toward zero (`Int.tmod`).
* The table is the array `WordNodePtr AllWords[TABLE_SIZE]`: exactly the 101 bucket heads
  `hash_table[0] .. hash_table[100]`.  The code indexes it with the `int` returned by
  `string_hash` without a check.  An access `hash_table[position]` with `position` outside
  `0 .. 100` is outside the array and has no defined behaviour: every function that makes
  such an access returns `none`, and so does everything that runs after it.  A bucket (a
  `nullptr`-terminated chain of nodes) is the list of the words of its nodes, head first.
* Console output is the list of the lines printed that carry a result (`Out`).
-/

namespace WordUnscrambler

/-- A byte, the storage of one `char`. -/
abbrev Byte := Fin 256

/-- The contents of a `std::string`: `size()` bytes, NUL bytes allowed. -/
abbrev Str := List Byte

/-- The bytes of a text, one per character code (used to write examples). -/
def str (s : String) : Str := s.toList.map (fun c => Fin.ofNat c.toNat)

/-- The value of a `char` holding byte `c`, as an `int`: `c - 256` for the upper half of a
signed `char`, the byte itself otherwise. -/
def charVal (sg : Bool) (c : Byte) : Int :=
  if sg && decide (128 ≤ c.val) then (c.val : Int) - 256 else (c.val : Int)

/-- Two's complement wrap-around of a 32-bit `int`. -/
def wrapInt (x : Int) : Int := (x + 2147483648) % 4294967296 - 2147483648

/-- The constant `TABLE_SIZE`. -/
def TABLE_SIZE : Int := 101

/-- Reads `s[i]`: the byte at index `i`, `'\0'` at `i = s.size()`. -/
def charAt (s : Str) (i : Nat) : Byte := s.getD i 0

/-! ## `string_hash` -/

/-- The loop of `string_hash`: `rest` is the string from index `i` on, `hash_index` the sum
so far.  The loop ends at the first NUL byte, or at the end of the string. -/
def hashLoop (sg : Bool) : Str → Int → Int
  | [], hash_index => hash_index
  | c :: rest, hash_index =>
    if c = 0 then hash_index else hashLoop sg rest (wrapInt (hash_index + charVal sg c))

/-- `int string_hash(const string str)`. -/
def string_hash (sg : Bool) (s : Str) : Int :=
  Int.tmod (hashLoop sg s 0) TABLE_SIZE

/-! ## `sortString` -/

/-- The three assignments that exchange `sorted_string[j-1]` and `sorted_string[j]`
(written here with `j` for `j-1`). -/
def swapAdjacent (s : Str) (j : Nat) : Str :=
  let temp := charAt s (j + 1)
  (s.set (j + 1) (charAt s j)).set j temp

/-- The inner `while` loop of `sortString`, entered with the cursor `j`:
while `j > 0` and `sorted_string[j-1] > sorted_string[j]`, exchange the two and decrement. -/
def sortInner (sg : Bool) : Nat → Str → Str
  | 0, s => s
  | j + 1, s =>
    if charVal sg (charAt s j) > charVal sg (charAt s (j + 1)) then
      sortInner sg j (swapAdjacent s j)
    else s

/-- The outer `for` loop of `sortString` at index `i`, with `n = size() - i` characters
left.  It ends when `sorted_string[i]` is NUL, which at `i = size()` is always the case. -/
def sortOuter (sg : Bool) : Nat → Nat → Str → Str
  | 0, _, s => s
  | n + 1, i, s =>
    if charAt s i = 0 then s else sortOuter sg n (i + 1) (sortInner sg i s)

/-- `string sortString(const string input_string)`. -/
def sortString (sg : Bool) (input_string : Str) : Str :=
  sortOuter sg input_string.length 0 input_string

/-! ## The table -/

/-- A bucket: the words of a chain of `WordNode`s, head first. -/
abbrev Bucket := List Str

/-- The array `WordNodePtr AllWords[TABLE_SIZE]`: the bucket heads `hash_table[0]` to
`hash_table[100]`. -/
abbrev Table := Fin 101 → Bucket

/-- `WordNodePtr AllWords[TABLE_SIZE] = { nullptr }`: every bucket is empty. -/
def emptyTable : Table := fun _ => []

/-- The cell `hash_table[position]` of the array, when `position` is one of its indices
`0 .. TABLE_SIZE - 1`; `none` when `position` lies outside the array. -/
def cellOf (position : Int) : Option (Fin 101) :=
  if h : 0 ≤ position ∧ position < TABLE_SIZE then
    some ⟨position.toNat, by unfold TABLE_SIZE at h; omega⟩
  else none

/-- The `else` branch of `addToTable`: walk to the node whose `next` is `nullptr` and link
the new node behind it. -/
def linkAtEnd : Bucket → Str → Bucket
  | [], word => [word]
  | [last], word => [last, word]
  | node :: next :: rest, word => node :: linkAtEnd (next :: rest) word

/-- `void addToTable(WordNodePtr *hash_table, string word)`: the table after the call;
`none` when `hash_table[position]` is outside the array. -/
def addToTable (sg : Bool) (hash_table : Table) (word : Str) : Option Table :=
  let position := string_hash sg word
  match cellOf position with
  | none => none
  | some cell =>
    match hash_table cell with
    | [] => some (Function.update hash_table cell [word])
    | node :: rest => some (Function.update hash_table cell (linkAtEnd (node :: rest) word))

/-- The calls `addToTable(hash_table, word)` for each word of `words` in turn. -/
def insertAll (sg : Bool) : List Str → Table → Option Table
  | [], hash_table => some hash_table
  | word :: rest, hash_table =>
    match addToTable sg hash_table word with
    | none => none
    | some hash_table1 => insertAll sg rest hash_table1

/-- The table after `addToTable` was called for each word of `words` in turn, starting from
the empty table. -/
def buildTable (sg : Bool) (words : List Str) : Option Table :=
  insertAll sg words emptyTable

/-! ## `compare` -/

/-- A result line on the console. -/
inductive Out where
  /-- The line `The word is <w>!` of `compare`. -/
  | theWordIs (w : Str)
  /-- The line `There is no word that matches!` of `compare`. -/
  | noMatch
  /-- A line holding one word of the dictionary, written by `printTable`. -/
  | listed (w : Str)
  deriving DecidableEq, Repr

/-- The `while` loop of `compare`: `chain` is the chain from `temp_ptr` on; the loop runs
while `temp_ptr != nullptr && found == false`.  Returns `found` and the lines printed. -/
def compareLoop (sg : Bool) (sorted_word : Str) : Bucket → Bool → List Out → Bool × List Out
  | [], found, out => (found, out)
  | word :: next, found, out =>
    if found then (found, out)
    else if sortString sg word = sorted_word then
      compareLoop sg sorted_word next true (out ++ [Out.theWordIs word])
    else compareLoop sg sorted_word next false out

/-- `void compare(WordNodePtr *hash_table, const string sorted_word)`: the lines printed;
`none` when `hash_table[position]` is outside the array. -/
def compare (sg : Bool) (hash_table : Table) (sorted_word : Str) : Option (List Out) :=
  let position := string_hash sg sorted_word
  match cellOf position with
  | none => none
  | some cell =>
    let r := compareLoop sg sorted_word (hash_table cell) false []
    some (if r.1 then r.2 else r.2 ++ [Out.noMatch])

/-! ## `printTable` -/

/-- The inner `while` loop of `printTable` on one chain, run for at most `fuel` iterations.
On a node whose word is empty the loop `continue`s without moving `temp_ptr`.
`none`: the loop is still running when the fuel is used up. -/
def printChain : Nat → Bucket → List Out → Option (List Out)
  | 0, _, _ => none
  | _ + 1, [], out => some out
  | fuel + 1, word :: next, out =>
    if word = [] then printChain fuel (word :: next) out
    else printChain fuel next (out ++ [Out.listed word])

/-- The `for` loop of `printTable`, `for (int i = 0; i < TABLE_SIZE; i++)`, at index `i`
with `n = TABLE_SIZE - i` rounds left. -/
def printBuckets (fuel : Nat) (hash_table : Table) : Nat → Nat → List Out → Option (List Out)
  | 0, _, out => some out
  | n + 1, i, out =>
    if h : i < 101 then
      match printChain fuel (hash_table ⟨i, h⟩) out with
      | none => none
      | some out1 => printBuckets fuel hash_table n (i + 1) out1
    else some out

/-- `void printTable(WordNodePtr *hash_table)`: the word lines printed, when every inner
loop ends within `fuel` iterations; `none` when an inner loop is still running then. -/
def printTable (fuel : Nat) (hash_table : Table) : Option (List Out) :=
  printBuckets fuel hash_table 101 0 []

/-! ## `openDictionary` and the menu of `main` -/

/-- The `while` loop of `openDictionary`.  `lines` are the strings that the successive
calls of `getline(in_file, file_string)` deliver until `in_file.eof()` holds; a line that
is not `""` is handed to `addToTable`. -/
def openDictionary (sg : Bool) : List Str → Table → Option Table
  | [], hash_table => some hash_table
  | file_string :: rest, hash_table =>
    if file_string ≠ [] then
      match addToTable sg hash_table file_string with
      | none => none
      | some hash_table1 => openDictionary sg rest hash_table1
    else openDictionary sg rest hash_table

/-- The function `tolower` of the C library in the default locale, on the byte of a `char`:
the letters `A .. Z` (65 .. 90) become `a .. z`, every other byte is returned as it is. -/
def tolower (c : Byte) : Byte := if 65 ≤ c.val ∧ c.val ≤ 90 then c + 32 else c

/-- The input formatting loop of `main`, `for (int i = 0; option[i]; i++)`: `rest` is the
line from index `i` on.  The loop ends at the first NUL byte, or at the end of the line. -/
def formatInput : Str → Str
  | [] => []
  | c :: rest => if c = 0 then c :: rest else tolower c :: formatInput rest

/-- The `compare` branch of the menu of `main`, taken for a line that is neither `3` nor
`1` once formatted: the line is formatted, sorted and handed to `compare`. -/
def queryPath (sg : Bool) (AllWords : Table) (line : Str) : Option (List Out) :=
  let option := formatInput line
  let option := sortString sg option
  compare sg AllWords option

/-- What one round of the menu of `main` does with the line read. -/
inductive MenuResult where
  /-- Option `3`: the table is deleted and the loop left. -/
  | exit
  /-- Option `1`: the lines of `printTable`, `none` while it is still running. -/
  | printed (out : Option (List Out))
  /-- Any other line: the lines of `compare`. -/
  | compared (out : List Out)
  /-- Any other line, when `compare` reads outside the array. -/
  | outsideTable
  deriving DecidableEq

/-- One round of the `while` loop of `main` on the line read by `getline(cin, option)`. -/
def menuStep (sg : Bool) (fuel : Nat) (AllWords : Table) (line : Str) : MenuResult :=
  let option := formatInput line
  if option = [51] then MenuResult.exit
  else if option = [49] then MenuResult.printed (printTable fuel AllWords)
  else
    match compare sg AllWords (sortString sg option) with
    | none => MenuResult.outsideTable
    | some out => MenuResult.compared out

/-! ## Auxiliary notions used in the statements -/

/-- The characters before the first NUL byte: the part of a string the loops visit. -/
def beforeNul (s : Str) : Str := s.takeWhile (fun c => decide (c ≠ 0))

/-- The first NUL byte and everything behind it (empty for a NUL-free string). -/
def fromNul (s : Str) : Str := s.dropWhile (fun c => decide (c ≠ 0))

/-- A string is NUL-free when none of its bytes is `'\0'`. -/
def NulFree (s : Str) : Prop := ∀ c ∈ s, c ≠ 0

instance (s : Str) : Decidable (NulFree s) :=
  inferInstanceAs (Decidable (∀ c ∈ s, c ≠ 0))

/-- Two strings are anagrams when they hold the same multiset of characters, that is, when
one is a rearrangement of the other. -/
abbrev Anagram (a b : Str) : Prop := List.Perm a b

/-- The order of two bytes by their value `0 .. 255`. -/
def byteLe (a b : Byte) : Prop := a.val ≤ b.val

instance : DecidableRel byteLe := fun a b => inferInstanceAs (Decidable (a.val ≤ b.val))

/-- The order in which the code compares two `char`s: `a <= b` on their values. -/
def charLe (sg : Bool) (a b : Byte) : Prop := charVal sg a ≤ charVal sg b

instance (sg : Bool) : DecidableRel (charLe sg) := fun a b =>
  inferInstanceAs (Decidable (charVal sg a ≤ charVal sg b))

instance (sg : Bool) : IsTotal Byte (charLe sg) := ⟨fun a b => by unfold charLe; omega⟩

instance (sg : Bool) : IsTrans Byte (charLe sg) :=
  ⟨fun a b c h1 h2 => by unfold charLe at *; omega⟩

instance (sg : Bool) : IsAntisymm Byte (charLe sg) :=
  ⟨fun a b h1 h2 => by
    apply Fin.ext
    have ha := a.isLt
    have hb := b.isLt
    unfold charLe charVal at *
    cases sg <;> simp at h1 h2
    · omega
    · split_ifs at h1 h2 <;> omega⟩

/-- The sum of the `char` values before the first NUL byte, as an unbounded integer. -/
def charSum (sg : Bool) (s : Str) : Int := ((beforeNul s).map (charVal sg)).sum

/-- Insertion of `x` into the reversed prefix `rl` (largest character first): the effect
of one run of the inner loop of `sortString`. -/
def insertBack (sg : Bool) (x : Byte) : List Byte → List Byte
  | [] => [x]
  | y :: rl => if charVal sg y > charVal sg x then y :: insertBack sg x rl else x :: y :: rl

/-- The outer loop of `sortString` on the reversed sorted prefix `rl` and the unread rest. -/
def sortRest (sg : Bool) : List Byte → List Byte → List Byte
  | rl, [] => rl.reverse
  | rl, x :: r => if x = 0 then rl.reverse ++ x :: r else sortRest sg (insertBack sg x rl) r

/-- The first word of `words` whose sorted form is `k`. -/
def firstMatch (sg : Bool) (words : List Str) (k : Str) : Option Str :=
  words.find? (fun w => decide (sortString sg w = k))

/-- The sum of the byte values of every character of a string. -/
def byteSum (s : Str) : Nat := (s.map (fun c => c.val)).sum

/-- The table whose bucket `i` holds the words of `words` that hash to `i`, in the order
they occur in `words`. -/
def groupTable (sg : Bool) (words : List Str) : Table :=
  fun i => words.filter (fun w => decide (string_hash sg w = (i.val : Int)))

/-! ## Characters and `int` arithmetic -/

theorem charVal_injective (sg : Bool) : Function.Injective (charVal sg) := by
  intro a b h
  apply Fin.ext
  have ha := a.isLt
  have hb := b.isLt
  unfold charVal at h
  cases sg <;> simp at h
  · exact h
  · split_ifs at h <;> omega

theorem charVal_ascii (sg : Bool) (c : Byte) (h : c.val < 128) : charVal sg c = (c.val : Int) := by
  unfold charVal
  cases sg <;> simp
  omega

theorem charVal_unsigned (c : Byte) : charVal false c = (c.val : Int) := by
  simp [charVal]

theorem wrapInt_wrapInt_add (a b : Int) : wrapInt (wrapInt a + b) = wrapInt (a + b) := by
  unfold wrapInt
  omega

theorem wrapInt_of_range (a : Int) (h0 : -2147483648 ≤ a) (h1 : a < 2147483648) :
    wrapInt a = a := by
  unfold wrapInt
  omega

/-! ## `sortString` is an insertion sort of the characters before the first NUL -/

theorem charAt_append_cons (l : Str) (x : Byte) (r : Str) :
    charAt (l ++ x :: r) l.length = x := by
  induction l with
  | nil => rfl
  | cons a l ih => simpa [charAt] using ih

theorem charAt_append_cons_succ (l : Str) (y x : Byte) (r : Str) :
    charAt (l ++ y :: x :: r) (l.length + 1) = x := by
  have h := charAt_append_cons (l ++ [y]) x r
  simpa using h

theorem swapAdjacent_append (l : Str) (y x : Byte) (r : Str) :
    swapAdjacent (l ++ y :: x :: r) l.length = l ++ x :: y :: r := by
  unfold swapAdjacent
  rw [charAt_append_cons_succ, charAt_append_cons]
  simp [List.set_append]

theorem insertBack_length (sg : Bool) (x : Byte) (rl : List Byte) :
    (insertBack sg x rl).length = rl.length + 1 := by
  induction rl with
  | nil => rfl
  | cons y rl ih =>
    unfold insertBack
    split_ifs <;> simp [ih]

theorem sortInner_eq (sg : Bool) (x : Byte) (rl : List Byte) (r : Str) :
    sortInner sg rl.length (rl.reverse ++ x :: r) = (insertBack sg x rl).reverse ++ r := by
  induction rl generalizing r with
  | nil => simp [sortInner, insertBack]
  | cons y rl ih =>
    have hs : (y :: rl).reverse ++ x :: r = rl.reverse ++ y :: x :: r := by simp
    have hl : rl.length = rl.reverse.length := by simp
    rw [hs, List.length_cons, sortInner]
    have h1 : charAt (rl.reverse ++ y :: x :: r) rl.length = y := by
      rw [hl]; exact charAt_append_cons _ _ _
    have h2 : charAt (rl.reverse ++ y :: x :: r) (rl.length + 1) = x := by
      rw [hl]; exact charAt_append_cons_succ _ _ _ _
    have h3 : swapAdjacent (rl.reverse ++ y :: x :: r) rl.length = rl.reverse ++ x :: y :: r := by
      rw [hl]; exact swapAdjacent_append _ _ _ _
    rw [h1, h2, h3, insertBack]
    by_cases hgt : charVal sg y > charVal sg x
    · rw [if_pos hgt, if_pos hgt, ih]
      simp
    · rw [if_neg hgt, if_neg hgt]
      simp

theorem sortOuter_eq (sg : Bool) (rl : List Byte) (r : Str) :
    sortOuter sg r.length rl.length (rl.reverse ++ r) = sortRest sg rl r := by
  induction r generalizing rl with
  | nil => simp [sortOuter, sortRest]
  | cons x r ih =>
    have hl : rl.length = rl.reverse.length := by simp
    have h1 : charAt (rl.reverse ++ x :: r) rl.length = x := by
      rw [hl]; exact charAt_append_cons _ _ _
    rw [List.length_cons, sortOuter, sortRest, h1]
    by_cases hx : x = 0
    · rw [if_pos hx, if_pos hx]
    · rw [if_neg hx, if_neg hx, sortInner_eq, ← insertBack_length sg x rl, ih]

theorem sortString_eq_sortRest (sg : Bool) (s : Str) : sortString sg s = sortRest sg [] s := by
  have h := sortOuter_eq sg [] s
  simpa [sortString] using h

theorem insertBack_perm (sg : Bool) (x : Byte) (rl : List Byte) :
    (insertBack sg x rl).Perm (x :: rl) := by
  induction rl with
  | nil => exact List.Perm.refl _
  | cons y rl ih =>
    unfold insertBack
    split_ifs
    · exact (ih.cons y).trans (List.Perm.swap x y rl)
    · exact List.Perm.refl _

theorem insertBack_sorted (sg : Bool) (x : Byte) (rl : List Byte)
    (h : rl.Pairwise (fun a b => charLe sg b a)) :
    (insertBack sg x rl).Pairwise (fun a b => charLe sg b a) := by
  induction rl with
  | nil => simp [insertBack]
  | cons y rl ih =>
    rw [List.pairwise_cons] at h
    unfold insertBack
    split_ifs with hgt
    · rw [List.pairwise_cons]
      refine ⟨?_, ih h.2⟩
      intro b hb
      rcases (List.mem_cons.mp ((insertBack_perm sg x rl).mem_iff.mp hb)) with hbx | hbl
      · subst hbx
        unfold charLe
        omega
      · exact h.1 b hbl
    · have hxy : charLe sg y x := by unfold charLe; omega
      rw [List.pairwise_cons, List.pairwise_cons]
      refine ⟨?_, h.1, h.2⟩
      intro b hb
      rcases List.mem_cons.mp hb with hby | hbl
      · subst hby; exact hxy
      · exact Trans.trans (h.1 b hbl) hxy

theorem beforeNul_append_fromNul (s : Str) : beforeNul s ++ fromNul s = s := by
  unfold beforeNul fromNul
  exact List.takeWhile_append_dropWhile _ s

theorem sortRest_spec (sg : Bool) (rl : List Byte) (r : Str)
    (h : rl.Pairwise (fun a b => charLe sg b a)) :
    ∃ p : List Byte, sortRest sg rl r = p ++ fromNul r ∧ p.Perm (rl ++ beforeNul r) ∧
      p.Sorted (charLe sg) := by
  induction r generalizing rl with
  | nil =>
    refine ⟨rl.reverse, by simp [sortRest, fromNul], by simp [beforeNul, List.reverse_perm], ?_⟩
    exact List.pairwise_reverse.mpr h
  | cons x r ih =>
    by_cases hx : x = 0
    · refine ⟨rl.reverse, by simp [sortRest, fromNul, hx], ?_, List.pairwise_reverse.mpr h⟩
      simp [beforeNul, hx, List.reverse_perm]
    · obtain ⟨p, hp1, hp2, hp3⟩ := ih (insertBack sg x rl) (insertBack_sorted sg x rl h)
      refine ⟨p, by simp [sortRest, fromNul, hx, hp1], ?_, hp3⟩
      have h1 : (insertBack sg x rl ++ beforeNul r).Perm (rl ++ x :: beforeNul r) :=
        ((insertBack_perm sg x rl).append_right _).trans (List.perm_middle.symm)
      have h2 : beforeNul (x :: r) = x :: beforeNul r := by simp [beforeNul, hx]
      rw [h2]
      exact hp2.trans h1

/-- The sorted form of a string: the characters before the first NUL byte in insertion-sort
order of their `char` values, followed by the untouched rest of the string. -/
theorem sortString_eq (sg : Bool) (s : Str) :
    sortString sg s = List.insertionSort (charLe sg) (beforeNul s) ++ fromNul s := by
  obtain ⟨p, hp1, hp2, hp3⟩ := sortRest_spec sg [] s List.Pairwise.nil
  rw [sortString_eq_sortRest, hp1]
  congr 1
  apply List.eq_of_perm_of_sorted (r := charLe sg) _ hp3 (List.sorted_insertionSort _ _)
  exact (hp2.trans (by simp)).trans (List.perm_insertionSort _ _).symm

theorem mem_beforeNul_ne (s : Str) : ∀ c ∈ beforeNul s, c ≠ 0 := by
  intro c hc
  have h := List.mem_takeWhile_imp hc
  simpa using h

theorem beforeNul_of_nulFree (s : Str) (h : NulFree s) : beforeNul s = s := by
  unfold beforeNul
  rw [List.takeWhile_eq_self_iff]
  intro c hc
  simpa using h c hc

theorem fromNul_of_nulFree (s : Str) (h : NulFree s) : fromNul s = [] := by
  have h1 := beforeNul_append_fromNul s
  rw [beforeNul_of_nulFree s h] at h1
  simpa using h1

theorem beforeNul_fromNul (s : Str) : beforeNul (fromNul s) = [] := by
  induction s with
  | nil => rfl
  | cons x s ih =>
    by_cases hx : x = 0
    · simp [fromNul, beforeNul, hx]
    · have h1 : fromNul (x :: s) = fromNul s := by simp [fromNul, hx]
      rw [h1, ih]

theorem fromNul_fromNul (s : Str) : fromNul (fromNul s) = fromNul s := by
  have h := beforeNul_append_fromNul (fromNul s)
  rw [beforeNul_fromNul] at h
  simpa using h

theorem beforeNul_append (p s : Str) (h : ∀ c ∈ p, c ≠ 0) :
    beforeNul (p ++ fromNul s) = p := by
  induction p with
  | nil => simpa using beforeNul_fromNul s
  | cons x p ih =>
    have hx : x ≠ 0 := h x (List.mem_cons_self _ _)
    have hp : ∀ c ∈ p, c ≠ 0 := fun c hc => h c (List.mem_cons_of_mem _ hc)
    have h1 : beforeNul (x :: (p ++ fromNul s)) = x :: beforeNul (p ++ fromNul s) := by
      simp [beforeNul, hx]
    rw [List.cons_append, h1, ih hp]

theorem fromNul_append (p s : Str) (h : ∀ c ∈ p, c ≠ 0) :
    fromNul (p ++ fromNul s) = fromNul s := by
  have h1 := beforeNul_append_fromNul (p ++ fromNul s)
  rw [beforeNul_append p s h] at h1
  exact List.append_cancel_left h1

theorem mem_insertionSort_beforeNul_ne (sg : Bool) (s : Str) :
    ∀ c ∈ List.insertionSort (charLe sg) (beforeNul s), c ≠ 0 := by
  intro c hc
  exact mem_beforeNul_ne s c ((List.perm_insertionSort _ _).mem_iff.mp hc)

theorem beforeNul_sortString (sg : Bool) (s : Str) :
    beforeNul (sortString sg s) = List.insertionSort (charLe sg) (beforeNul s) := by
  rw [sortString_eq]
  exact beforeNul_append _ _ (mem_insertionSort_beforeNul_ne sg s)

theorem fromNul_sortString (sg : Bool) (s : Str) : fromNul (sortString sg s) = fromNul s := by
  rw [sortString_eq]
  exact fromNul_append _ _ (mem_insertionSort_beforeNul_ne sg s)

theorem sortString_perm (sg : Bool) (s : Str) : (sortString sg s).Perm s := by
  have h : (List.insertionSort (charLe sg) (beforeNul s) ++ fromNul s).Perm
      (beforeNul s ++ fromNul s) := (List.perm_insertionSort _ _).append_right _
  rw [beforeNul_append_fromNul] at h
  rw [sortString_eq]
  exact h

theorem sortString_of_nulFree (sg : Bool) (s : Str) (h : NulFree s) :
    sortString sg s = List.insertionSort (charLe sg) s := by
  rw [sortString_eq, beforeNul_of_nulFree s h, fromNul_of_nulFree s h, List.append_nil]

theorem nulFree_of_perm {a b : Str} (h : a.Perm b) (ha : NulFree a) : NulFree b :=
  fun c hc => ha c (h.mem_iff.mpr hc)

theorem sortString_eq_of_perm (sg : Bool) (a b : Str) (h : a.Perm b) (ha : NulFree a) :
    sortString sg a = sortString sg b := by
  rw [sortString_of_nulFree sg a ha, sortString_of_nulFree sg b (nulFree_of_perm h ha)]
  apply List.eq_of_perm_of_sorted (r := charLe sg) _ (List.sorted_insertionSort _ _)
    (List.sorted_insertionSort _ _)
  exact ((List.perm_insertionSort _ _).trans h).trans (List.perm_insertionSort _ _).symm

theorem perm_of_sortString_eq (sg : Bool) (a b : Str) (h : sortString sg a = sortString sg b) :
    a.Perm b :=
  ((sortString_perm sg a).symm.trans (h ▸ List.Perm.refl _)).trans (sortString_perm sg b)

/-! ## `string_hash` is the wrapped sum of the characters before the first NUL -/

theorem hashLoop_eq (sg : Bool) (s : Str) (a : Int) :
    hashLoop sg s (wrapInt a) = wrapInt (a + charSum sg s) := by
  induction s generalizing a with
  | nil => simp [hashLoop, charSum, beforeNul]
  | cons x s ih =>
    by_cases hx : x = 0
    · simp [hashLoop, charSum, beforeNul, hx]
    · have h1 : charSum sg (x :: s) = charVal sg x + charSum sg s := by
        simp [charSum, beforeNul, hx]
      rw [hashLoop, if_neg hx, wrapInt_wrapInt_add, ih, h1, Int.add_assoc]

theorem string_hash_eq (sg : Bool) (s : Str) :
    string_hash sg s = Int.tmod (wrapInt (charSum sg s)) TABLE_SIZE := by
  have h := hashLoop_eq sg s 0
  have h0 : wrapInt 0 = 0 := by decide
  rw [h0, Int.zero_add] at h
  rw [string_hash, h]

theorem charSum_sortString (sg : Bool) (s : Str) : charSum sg (sortString sg s) = charSum sg s := by
  unfold charSum
  rw [beforeNul_sortString]
  exact ((List.perm_insertionSort (charLe sg) (beforeNul s)).map (charVal sg)).sum_eq

/-- Hashing the raw word and hashing its sorted form give the same bucket index. -/
theorem string_hash_sortString (sg : Bool) (s : Str) :
    string_hash sg (sortString sg s) = string_hash sg s := by
  rw [string_hash_eq, string_hash_eq, charSum_sortString]

theorem string_hash_eq_of_sortString_eq (sg : Bool) (a b : Str)
    (h : sortString sg a = sortString sg b) : string_hash sg a = string_hash sg b := by
  rw [← string_hash_sortString sg a, ← string_hash_sortString sg b, h]

/-! ## Valid bucket indices -/

theorem charSum_bounds_of_ascii (sg : Bool) (s : Str) (h : ∀ c ∈ s, c.val < 128) :
    0 ≤ charSum sg s ∧ charSum sg s ≤ 127 * (s.length : Int) := by
  induction s with
  | nil => simp [charSum, beforeNul]
  | cons x s ih =>
    have hx : x.val < 128 := h x (List.mem_cons_self _ _)
    have hs := ih (fun c hc => h c (List.mem_cons_of_mem _ hc))
    by_cases h0 : x = 0
    · have h1 : charSum sg (x :: s) = 0 := by simp [charSum, beforeNul, h0]
      rw [h1]
      constructor
      · exact le_refl _
      · positivity
    · have h1 : charSum sg (x :: s) = charVal sg x + charSum sg s := by
        simp [charSum, beforeNul, h0]
      rw [h1, charVal_ascii sg x hx, List.length_cons]
      push_cast
      omega

/-- For ASCII text of fewer than `2^24` characters the bucket index is valid. -/
theorem string_hash_valid_of_ascii (sg : Bool) (s : Str) (h : ∀ c ∈ s, c.val < 128)
    (hlen : s.length < 16777216) :
    0 ≤ string_hash sg s ∧ string_hash sg s < TABLE_SIZE := by
  obtain ⟨h0, h1⟩ := charSum_bounds_of_ascii sg s h
  have h2 : charSum sg s < 2147483648 := by
    have : (s.length : Int) < 16777216 := by exact_mod_cast hlen
    omega
  rw [string_hash_eq, wrapInt_of_range _ (by omega) h2]
  constructor
  · exact Int.tmod_nonneg _ h0
  · exact Int.tmod_lt_of_pos _ (by decide)

/-! ## Grouping a list by bucket index -/

theorem flatMap_range_single {α : Type} (a : α) (k : Int) (n : Nat) :
    (List.range n).flatMap (fun i => if k = (i : Int) then [a] else []) =
      if 0 ≤ k ∧ k < (n : Int) then [a] else [] := by
  induction n with
  | zero =>
    have : ¬ (0 ≤ k ∧ k < ((0 : Nat) : Int)) := by push_cast; omega
    simp [this]
  | succ n ih =>
    rw [List.range_succ, List.flatMap_append, ih]
    simp only [List.flatMap_cons, List.flatMap_nil, List.append_nil]
    push_cast
    split_ifs <;> first | rfl | omega

theorem flatMap_filter_perm {α : Type} (f : α → Int) (n : Nat) (l : List α)
    (hv : ∀ a ∈ l, 0 ≤ f a ∧ f a < (n : Int)) :
    ((List.range n).flatMap (fun i => l.filter (fun a => decide (f a = (i : Int))))).Perm l := by
  induction l with
  | nil => simp
  | cons a l ih =>
    have ha := hv a (List.mem_cons_self _ _)
    have hl := ih (fun b hb => hv b (List.mem_cons_of_mem _ hb))
    have hfun : (fun i : Nat => (a :: l).filter (fun b => decide (f b = (i : Int)))) =
        (fun i : Nat => (if f a = (i : Int) then [a] else []) ++
          l.filter (fun b => decide (f b = (i : Int)))) := by
      funext i
      by_cases hi : f a = (i : Int) <;> simp [List.filter_cons, hi]
    rw [hfun]
    refine (List.flatMap_append_perm _ _ _).symm.trans ?_
    rw [flatMap_range_single, if_pos ha]
    exact hl.cons a

theorem filter_lt_append_filter_eq {α : Type} (f : α → Int) (n : Int) (l : List α)
    (hs : l.Pairwise (fun a b => f a ≤ f b)) (hb : ∀ a ∈ l, f a ≤ n) :
    l.filter (fun a => decide (f a < n)) ++ l.filter (fun a => decide (f a = n)) = l := by
  induction l with
  | nil => rfl
  | cons a l ih =>
    rw [List.pairwise_cons] at hs
    have hl := ih hs.2 (fun b hb2 => hb b (List.mem_cons_of_mem _ hb2))
    have ha := hb a (List.mem_cons_self _ _)
    by_cases hlt : f a < n
    · have hne : ¬ f a = n := by omega
      simp only [List.filter_cons, hlt, hne, decide_True, decide_False, if_true]
      simpa using hl
    · have heq : f a = n := by omega
      have hall : ∀ b ∈ l, f b = n := by
        intro b hb2
        have h1 := hs.1 b hb2
        have h2 := hb b (List.mem_cons_of_mem _ hb2)
        omega
      have h1 : l.filter (fun a => decide (f a < n)) = [] := by
        rw [List.filter_eq_nil_iff]
        intro b hb2
        have := hall b hb2
        simp; omega
      have h2 : l.filter (fun a => decide (f a = n)) = l := by
        rw [List.filter_eq_self]
        intro b hb2
        simpa using hall b hb2
      simp [List.filter_cons, hlt, heq, h1, h2]

theorem flatMap_filter_of_sorted {α : Type} (f : α → Int) (n : Nat) (l : List α)
    (hs : l.Pairwise (fun a b => f a ≤ f b)) (hv : ∀ a ∈ l, 0 ≤ f a ∧ f a < (n : Int)) :
    (List.range n).flatMap (fun i => l.filter (fun a => decide (f a = (i : Int)))) = l := by
  induction n generalizing l with
  | zero =>
    cases l with
    | nil => rfl
    | cons a l =>
      have := hv a (List.mem_cons_self _ _)
      push_cast at this
      omega
  | succ n ih =>
    have hlow := ih (l.filter (fun a => decide (f a < (n : Int)))) (hs.filter _)
      (fun a ha => by
        have h1 := List.mem_filter.mp ha
        have h2 := hv a h1.1
        have h3 : f a < (n : Int) := by simpa using h1.2
        exact ⟨h2.1, h3⟩)
    have hcongr : (List.range n).flatMap
          (fun i => (l.filter (fun a => decide (f a < (n : Int)))).filter
            (fun a => decide (f a = (i : Int)))) =
        (List.range n).flatMap (fun i => l.filter (fun a => decide (f a = (i : Int)))) := by
      unfold List.flatMap
      congr 1
      apply List.map_congr_left
      intro i hi
      have hi2 : i < n := List.mem_range.mp hi
      rw [List.filter_filter]
      apply List.filter_congr
      intro a _
      by_cases h : f a = (i : Int)
      · simp [h, hi2]
      · simp [h]
    rw [List.range_succ, List.flatMap_append, ← hcongr, hlow]
    simp only [List.flatMap_cons, List.flatMap_nil, List.append_nil]
    apply filter_lt_append_filter_eq f n l hs
    intro a ha
    have := (hv a ha).2
    push_cast at this
    omega

/-! ## Further facts on strings -/

theorem string_hash_nil (sg : Bool) : string_hash sg [] = 0 := by
  cases sg <;> rfl

theorem sortString_idem (sg : Bool) (w : Str) :
    sortString sg (sortString sg w) = sortString sg w := by
  rw [sortString_eq sg (sortString sg w), beforeNul_sortString, fromNul_sortString,
    List.Sorted.insertionSort_eq (List.sorted_insertionSort _ _), ← sortString_eq]

theorem sum_charVal_eq (sg : Bool) (l : Str) (h : ∀ c ∈ l, charVal sg c = (c.val : Int)) :
    (l.map (charVal sg)).sum = ((byteSum l : Nat) : Int) := by
  induction l with
  | nil => simp [byteSum]
  | cons x l ih =>
    have hx := h x (List.mem_cons_self _ _)
    have hl := ih (fun c hc => h c (List.mem_cons_of_mem _ hc))
    simp only [List.map_cons, List.sum_cons, byteSum, Nat.cast_add] at *
    rw [hx, hl]

theorem byteSum_le (l : Str) : byteSum l ≤ 255 * l.length := by
  induction l with
  | nil => simp [byteSum]
  | cons x l ih =>
    have hx := x.isLt
    simp only [byteSum, List.map_cons, List.sum_cons, List.length_cons] at *
    omega

theorem charVal_eq_val_of (sg : Bool) (s : Str) (h : sg = false ∨ ∀ c ∈ s, c.val < 128) :
    ∀ c ∈ s, charVal sg c = (c.val : Int) := by
  intro c hc
  rcases h with h | h
  · subst h; exact charVal_unsigned c
  · exact charVal_ascii sg c (h c hc)

theorem string_hash_eq_byteSum (sg : Bool) (s : Str)
    (hplat : sg = false ∨ ∀ c ∈ s, c.val < 128) (hlen : s.length < 8388608) :
    string_hash sg s = ((byteSum (beforeNul s) % 101 : Nat) : Int) := by
  have hsub : ∀ c ∈ beforeNul s, c ∈ s := fun c hc =>
    (List.takeWhile_sublist _).subset hc
  have hsum : charSum sg s = ((byteSum (beforeNul s) : Nat) : Int) :=
    sum_charVal_eq sg _ (fun c hc => charVal_eq_val_of sg s hplat c (hsub c hc))
  have hlen2 : (beforeNul s).length ≤ s.length := (List.takeWhile_sublist _).length_le
  have hb := byteSum_le (beforeNul s)
  rw [string_hash_eq, hsum, wrapInt_of_range _ (by omega) (by omega)]
  rfl

theorem sorted_byteLe_of_charLe (sg : Bool) (l : Str)
    (hplat : sg = false ∨ ∀ c ∈ l, c.val < 128) (h : List.Sorted (charLe sg) l) :
    List.Sorted byteLe l := by
  refine List.Pairwise.imp_of_mem ?_ h
  intro a b ha hb hab
  unfold charLe at hab
  unfold byteLe
  rw [charVal_eq_val_of sg l hplat a ha, charVal_eq_val_of sg l hplat b hb] at hab
  exact_mod_cast hab

theorem sortString_eq_of_eq_nulFree (sg : Bool) (w q : Str) (hq : NulFree q)
    (h : sortString sg w = q) : List.Sorted (charLe sg) q := by
  have hp : q.Perm w := by rw [← h]; exact sortString_perm sg w
  have hw : NulFree w := nulFree_of_perm hp hq
  rw [← h, sortString_of_nulFree sg w hw]
  exact List.sorted_insertionSort _ _

theorem tolower_not_upper (c : Byte) : ¬ (65 ≤ (tolower c).val ∧ (tolower c).val ≤ 90) := by
  have hc := c.isLt
  unfold tolower
  split_ifs with h
  · rw [Fin.val_add]
    have : (32 : Fin 256).val = 32 := rfl
    rw [this]
    omega
  · exact h

theorem formatInput_not_upper (line : Str) (h : NulFree line) :
    ∀ c ∈ formatInput line, ¬ (65 ≤ c.val ∧ c.val ≤ 90) := by
  induction line with
  | nil => simp [formatInput]
  | cons x line ih =>
    have hx : x ≠ 0 := h x (List.mem_cons_self _ _)
    have hl := ih (fun c hc => h c (List.mem_cons_of_mem _ hc))
    rw [formatInput, if_neg hx]
    intro c hc
    rcases List.mem_cons.mp hc with h1 | h1
    · rw [h1]; exact tolower_not_upper x
    · exact hl c h1

/-! ## Chains: lookup and printing of one bucket -/

theorem linkAtEnd_eq (b : Bucket) (word : Str) : linkAtEnd b word = b ++ [word] := by
  induction b with
  | nil => rfl
  | cons node rest ih =>
    cases rest with
    | nil => rfl
    | cons next rest => rw [linkAtEnd, ih]; rfl

theorem compareLoop_found (sg : Bool) (k : Str) (b : Bucket) (out : List Out) :
    compareLoop sg k b true out = (true, out) := by
  cases b <;> simp [compareLoop]

theorem compareLoop_eq (sg : Bool) (k : Str) (b : Bucket) (out : List Out) :
    compareLoop sg k b false out =
      match b.find? (fun w => decide (sortString sg w = k)) with
      | some w => (true, out ++ [Out.theWordIs w])
      | none => (false, out) := by
  induction b with
  | nil => simp [compareLoop]
  | cons w b ih =>
    by_cases h : sortString sg w = k
    · simp [compareLoop, h, compareLoop_found]
    · simp [compareLoop, h, ih]

theorem find?_filter_of_imp {α : Type} (p q : α → Bool) (l : List α)
    (h : ∀ a, q a = true → p a = true) : (l.filter p).find? q = l.find? q := by
  induction l with
  | nil => rfl
  | cons a l ih =>
    by_cases hp : p a = true
    · rw [List.filter_cons_of_pos hp]
      by_cases hq : q a = true
      · simp [List.find?_cons, hq]
      · simp [List.find?_cons, hq, ih]
    · have hq : ¬ q a = true := fun hq => hp (h a hq)
      rw [List.filter_cons_of_neg hp]
      simp [List.find?_cons, hq, ih]

theorem firstMatch_eq_none (sg : Bool) (words : List Str) (k : Str) :
    firstMatch sg words k = none ↔ ∀ w ∈ words, sortString sg w ≠ k := by
  unfold firstMatch
  rw [List.find?_eq_none]
  simp

theorem firstMatch_eq_some (sg : Bool) (words : List Str) (k : Str) (w : Str)
    (h : firstMatch sg words k = some w) :
    sortString sg w = k ∧ ∃ earlier later : List Str,
      words = earlier ++ w :: later ∧ ∀ v ∈ earlier, sortString sg v ≠ k := by
  induction words with
  | nil => simp [firstMatch] at h
  | cons a words ih =>
    by_cases ha : sortString sg a = k
    · have h1 : firstMatch sg (a :: words) k = some a := by simp [firstMatch, ha]
      rw [h1] at h
      cases h
      exact ⟨ha, [], words, rfl, by simp⟩
    · have h1 : firstMatch sg (a :: words) k = firstMatch sg words k := by
        simp [firstMatch, ha]
      rw [h1] at h
      obtain ⟨hw, earlier, later, hsplit, hnone⟩ := ih h
      refine ⟨hw, a :: earlier, later, by rw [hsplit]; rfl, ?_⟩
      intro v hv
      rcases List.mem_cons.mp hv with hva | hve
      · subst hva; exact ha
      · exact hnone v hve

theorem firstMatch_isSome (sg : Bool) (words : List Str) (k : Str)
    (h : ∃ w ∈ words, sortString sg w = k) : ∃ w, firstMatch sg words k = some w := by
  cases hf : firstMatch sg words k with
  | some w => exact ⟨w, rfl⟩
  | none =>
    obtain ⟨w, hw, hk⟩ := h
    exact absurd hk ((firstMatch_eq_none sg words k).mp hf w hw)

theorem printChain_eq (fuel : Nat) (b : Bucket) (out : List Out)
    (hne : ∀ w ∈ b, w ≠ []) (hfuel : b.length < fuel) :
    printChain fuel b out = some (out ++ b.map Out.listed) := by
  induction b generalizing fuel out with
  | nil =>
    cases fuel with
    | zero => simp at hfuel
    | succ fuel => simp [printChain]
  | cons w b ih =>
    cases fuel with
    | zero => simp at hfuel
    | succ fuel =>
      have hw : w ≠ [] := hne w (List.mem_cons_self _ _)
      have hb : ∀ v ∈ b, v ≠ [] := fun v hv => hne v (List.mem_cons_of_mem _ hv)
      have hf : b.length < fuel := by simpa using hfuel
      rw [printChain, if_neg hw, ih fuel _ hb hf]
      simp

theorem printChain_some (fuel : Nat) (b : Bucket) (out r : List Out)
    (h : printChain fuel b out = some r) : r = out ++ b.map Out.listed := by
  induction fuel generalizing b out with
  | zero => simp [printChain] at h
  | succ fuel ih =>
    cases b with
    | nil =>
      simp [printChain] at h
      simp [h]
    | cons w next =>
      rw [printChain] at h
      by_cases hw : w = []
      · rw [if_pos hw] at h
        exact ih _ _ h
      · rw [if_neg hw] at h
        have h1 := ih _ _ h
        simpa using h1

theorem printChain_none_of_mem (fuel : Nat) (b : Bucket) (out : List Out)
    (h : ([] : Str) ∈ b) : printChain fuel b out = none := by
  induction fuel generalizing b out with
  | zero => rfl
  | succ fuel ih =>
    cases b with
    | nil => simp at h
    | cons w next =>
      rw [printChain]
      by_cases hw : w = []
      · rw [if_pos hw]
        exact ih _ _ h
      · rw [if_neg hw]
        rcases List.mem_cons.mp h with h1 | h1
        · exact absurd h1.symm hw
        · exact ih _ _ h1

/-! ## The table: insertion and lookup -/

theorem cellOf_eq_some_iff (p : Int) (i : Fin 101) : cellOf p = some i ↔ (i.val : Int) = p := by
  have hi := i.isLt
  unfold cellOf
  by_cases h : 0 ≤ p ∧ p < TABLE_SIZE
  · rw [dif_pos h]
    unfold TABLE_SIZE at h
    constructor
    · intro heq
      have h1 := congrArg Fin.val (Option.some.inj heq)
      simp only at h1
      omega
    · intro heq
      congr 1
      apply Fin.ext
      simp only
      omega
  · rw [dif_neg h]
    unfold TABLE_SIZE at h
    constructor
    · intro heq; cases heq
    · intro heq; omega

theorem cellOf_eq_none_iff (p : Int) : cellOf p = none ↔ ¬ (0 ≤ p ∧ p < TABLE_SIZE) := by
  unfold cellOf
  by_cases h : 0 ≤ p ∧ p < TABLE_SIZE
  · simp [h]
  · simp [h]

theorem cellOf_of_valid (p : Int) (h : 0 ≤ p ∧ p < TABLE_SIZE) :
    ∃ i : Fin 101, cellOf p = some i ∧ (i.val : Int) = p := by
  cases hc : cellOf p with
  | none => exact absurd h ((cellOf_eq_none_iff p).mp hc)
  | some i => exact ⟨i, rfl, (cellOf_eq_some_iff p i).mp hc⟩

theorem cellOf_val (i : Fin 101) : cellOf (i.val : Int) = some i :=
  (cellOf_eq_some_iff _ i).mpr rfl

theorem addToTable_of_cell (sg : Bool) (t : Table) (word : Str) (i : Fin 101)
    (h : cellOf (string_hash sg word) = some i) :
    addToTable sg t word = some (Function.update t i (t i ++ [word])) := by
  unfold addToTable
  simp only [h]
  cases hb : t i with
  | nil => simp
  | cons node rest => simp [linkAtEnd_eq]

theorem addToTable_eq_none (sg : Bool) (t : Table) (word : Str)
    (h : ¬ (0 ≤ string_hash sg word ∧ string_hash sg word < TABLE_SIZE)) :
    addToTable sg t word = none := by
  unfold addToTable
  simp only [(cellOf_eq_none_iff _).mpr h]

theorem addToTable_some_valid (sg : Bool) (t t1 : Table) (word : Str)
    (h : addToTable sg t word = some t1) :
    0 ≤ string_hash sg word ∧ string_hash sg word < TABLE_SIZE := by
  by_contra hv
  rw [addToTable_eq_none sg t word hv] at h
  cases h

theorem insertAll_eq (sg : Bool) (words : List Str) (t : Table)
    (hvalid : ∀ w ∈ words, 0 ≤ string_hash sg w ∧ string_hash sg w < TABLE_SIZE) :
    insertAll sg words t =
      some (fun i => t i ++ words.filter (fun w => decide (string_hash sg w = (i.val : Int)))) := by
  induction words generalizing t with
  | nil => simp [insertAll]
  | cons w words ih =>
    obtain ⟨i0, hc, hi0⟩ := cellOf_of_valid _ (hvalid w (List.mem_cons_self _ _))
    rw [insertAll, addToTable_of_cell sg t w i0 hc]
    simp only
    rw [ih _ (fun v hv => hvalid v (List.mem_cons_of_mem _ hv))]
    congr 1
    funext i
    by_cases hi : i = i0
    · subst hi
      simp [hi0]
    · have hne : ¬ string_hash sg w = (i.val : Int) := by
        intro heq
        apply hi
        apply Fin.ext
        have : (i0.val : Int) = (i.val : Int) := by rw [hi0, heq]
        exact_mod_cast this.symm
      simp [Function.update_noteq hi, hne]

theorem insertAll_some_valid (sg : Bool) (words : List Str) (t t1 : Table)
    (h : insertAll sg words t = some t1) :
    ∀ w ∈ words, 0 ≤ string_hash sg w ∧ string_hash sg w < TABLE_SIZE := by
  induction words generalizing t with
  | nil => simp
  | cons w words ih =>
    rw [insertAll] at h
    cases ha : addToTable sg t w with
    | none => simp [ha] at h
    | some t2 =>
      rw [ha] at h
      intro v hv
      rcases List.mem_cons.mp hv with h1 | h1
      · rw [h1]; exact addToTable_some_valid sg t t2 w ha
      · exact ih t2 h v h1

/-- With valid bucket indices the insertions succeed and bucket `i` of the built table
holds the inserted words that hash to `i`, in insertion order. -/
theorem buildTable_eq (sg : Bool) (words : List Str)
    (hvalid : ∀ w ∈ words, 0 ≤ string_hash sg w ∧ string_hash sg w < TABLE_SIZE) :
    buildTable sg words = some (groupTable sg words) := by
  unfold buildTable
  rw [insertAll_eq sg words emptyTable hvalid]
  rfl

theorem buildTable_some (sg : Bool) (words : List Str) (t : Table)
    (h : buildTable sg words = some t) :
    (∀ w ∈ words, 0 ≤ string_hash sg w ∧ string_hash sg w < TABLE_SIZE) ∧
      t = groupTable sg words := by
  have hv := insertAll_some_valid sg words emptyTable t h
  refine ⟨hv, ?_⟩
  rw [buildTable_eq sg words hv] at h
  exact (Option.some.inj h).symm

theorem mem_groupTable (sg : Bool) (words : List Str) (i : Fin 101) (w : Str) :
    w ∈ groupTable sg words i ↔ w ∈ words ∧ string_hash sg w = (i.val : Int) := by
  unfold groupTable
  simp

theorem groupTable_count (sg : Bool) (words : List Str) (i : Fin 101) (w : Str)
    (h : string_hash sg w = (i.val : Int)) :
    (groupTable sg words i).count w = words.count w := by
  unfold groupTable
  exact List.count_filter (by simpa using h)

theorem openDictionary_eq (sg : Bool) (lines : List Str) (t : Table) :
    openDictionary sg lines t =
      insertAll sg (lines.filter (fun l => decide (l ≠ []))) t := by
  induction lines generalizing t with
  | nil => rfl
  | cons l lines ih =>
    rw [openDictionary]
    by_cases hl : l = []
    · simp [hl, ih]
    · have hf : (l :: lines).filter (fun l => decide (l ≠ [])) =
          l :: lines.filter (fun l => decide (l ≠ [])) := by simp [hl]
      rw [if_pos hl, hf, insertAll]
      cases addToTable sg t l with
      | none => rfl
      | some t1 => exact ih t1

theorem openDictionary_emptyTable (sg : Bool) (lines : List Str) :
    openDictionary sg lines emptyTable =
      buildTable sg (lines.filter (fun l => decide (l ≠ []))) :=
  openDictionary_eq sg lines emptyTable

theorem compare_of_cell (sg : Bool) (t : Table) (k : Str) (i : Fin 101)
    (h : cellOf (string_hash sg k) = some i) :
    compare sg t k =
      some (match (t i).find? (fun w => decide (sortString sg w = k)) with
        | some w => [Out.theWordIs w]
        | none => [Out.noMatch]) := by
  unfold compare
  simp only [h, compareLoop_eq]
  cases (t i).find? (fun w => decide (sortString sg w = k)) <;> simp

theorem compare_eq_none (sg : Bool) (t : Table) (k : Str)
    (h : ¬ (0 ≤ string_hash sg k ∧ string_hash sg k < TABLE_SIZE)) :
    compare sg t k = none := by
  unfold compare
  simp only [(cellOf_eq_none_iff _).mpr h]

theorem compare_some_valid (sg : Bool) (t : Table) (k : Str) (out : List Out)
    (h : compare sg t k = some out) :
    0 ≤ string_hash sg k ∧ string_hash sg k < TABLE_SIZE := by
  by_contra hv
  rw [compare_eq_none sg t k hv] at h
  cases h

/-- What `compare` prints on a built table for a query with a valid bucket index: the first
inserted word whose sorted form is the query, or the no-match line. -/
theorem compare_groupTable (sg : Bool) (words : List Str) (k : Str)
    (hk : 0 ≤ string_hash sg k ∧ string_hash sg k < TABLE_SIZE) :
    compare sg (groupTable sg words) k =
      some (match firstMatch sg words k with
        | some w => [Out.theWordIs w]
        | none => [Out.noMatch]) := by
  obtain ⟨i, hc, hi⟩ := cellOf_of_valid _ hk
  rw [compare_of_cell sg _ k i hc]
  unfold groupTable
  rw [find?_filter_of_imp]
  · rfl
  · intro w hw
    have hkw : sortString sg w = k := by simpa using hw
    have h1 : string_hash sg w = string_hash sg k := by
      rw [← string_hash_sortString sg w, hkw]
    simpa [hi] using h1

theorem compare_eq_noMatch (sg : Bool) (t : Table) (k : Str) (i : Fin 101)
    (hc : cellOf (string_hash sg k) = some i) (h : ∀ w ∈ t i, sortString sg w ≠ k) :
    compare sg t k = some [Out.noMatch] := by
  rw [compare_of_cell sg t k i hc]
  have hf : (t i).find? (fun w => decide (sortString sg w = k)) = none := by
    rw [List.find?_eq_none]
    intro w hw
    simpa using h w hw
  rw [hf]

theorem sortString_eq_of_mem_compare (sg : Bool) (t : Table) (k w : Str) (out : List Out)
    (hout : compare sg t k = some out) (h : Out.theWordIs w ∈ out) : sortString sg w = k := by
  obtain ⟨i, hc, _⟩ := cellOf_of_valid _ (compare_some_valid sg t k out hout)
  rw [compare_of_cell sg t k i hc] at hout
  cases hf : (t i).find? (fun w => decide (sortString sg w = k)) with
  | none =>
    rw [hf] at hout
    rw [← Option.some.inj hout] at h
    simp at h
  | some v =>
    rw [hf] at hout
    rw [← Option.some.inj hout] at h
    have hv : w = v := by simpa using h
    have := List.find?_some hf
    rw [hv]
    simpa using this

theorem not_reported_of_upper (sg : Bool) (t : Table) (w line : Str) (out : List Out)
    (hw : ∃ c ∈ w, 65 ≤ c.val ∧ c.val ≤ 90) (hl : NulFree line)
    (hout : compare sg t (sortString sg (formatInput line)) = some out) :
    Out.theWordIs w ∉ out := by
  intro hmem
  have hk := sortString_eq_of_mem_compare sg t _ w out hout hmem
  obtain ⟨c, hc, hup⟩ := hw
  have h1 : c ∈ sortString sg w := (sortString_perm sg w).mem_iff.mpr hc
  rw [hk] at h1
  have h2 : c ∈ formatInput line := (sortString_perm sg _).mem_iff.mp h1
  exact formatInput_not_upper line hl c h2 hup

/-! ## `printTable` -/

theorem printBuckets_eq (fuel : Nat) (t : Table) (b : Nat → Bucket)
    (hb : ∀ (i : Nat) (h : i < 101), t ⟨i, h⟩ = b i) (n i : Nat) (out : List Out)
    (hin : i + n ≤ 101)
    (hne : ∀ k, k < n → ∀ w ∈ b (i + k), w ≠ [])
    (hfuel : ∀ k, k < n → (b (i + k)).length < fuel) :
    printBuckets fuel t n i out =
      some (out ++ (List.range n).flatMap (fun k => (b (i + k)).map Out.listed)) := by
  induction n generalizing i out with
  | zero => simp [printBuckets]
  | succ n ih =>
    have hi : i < 101 := by omega
    have h0 : printChain fuel (b i) out = some (out ++ (b i).map Out.listed) := by
      apply printChain_eq
      · simpa using hne 0 (Nat.succ_pos n)
      · simpa using hfuel 0 (Nat.succ_pos n)
    have hshift : (fun k : Nat => (b (i + 1 + k)).map Out.listed) =
        (fun k : Nat => (b (i + (k + 1))).map Out.listed) := by
      funext k
      rw [Nat.add_assoc, Nat.add_comm 1 k]
    rw [printBuckets, dif_pos hi, hb i hi, h0]
    simp only
    rw [ih (i + 1) _ (by omega)]
    · rw [List.range_succ_eq_map, List.flatMap_cons, List.flatMap_map, hshift]
      simp [Function.comp_def]
    · intro k hk w hw
      rw [Nat.add_assoc, Nat.add_comm 1 k] at hw
      exact hne (k + 1) (Nat.succ_lt_succ hk) w hw
    · intro k hk
      rw [Nat.add_assoc, Nat.add_comm 1 k]
      exact hfuel (k + 1) (Nat.succ_lt_succ hk)

theorem printBuckets_some (fuel : Nat) (t : Table) (b : Nat → Bucket)
    (hb : ∀ (i : Nat) (h : i < 101), t ⟨i, h⟩ = b i) (n i : Nat) (out r : List Out)
    (hin : i + n ≤ 101) (h : printBuckets fuel t n i out = some r) :
    r = out ++ (List.range n).flatMap (fun k => (b (i + k)).map Out.listed) := by
  induction n generalizing i out with
  | zero =>
    simp [printBuckets] at h
    simp [h]
  | succ n ih =>
    have hi : i < 101 := by omega
    rw [printBuckets, dif_pos hi, hb i hi] at h
    cases hc : printChain fuel (b i) out with
    | none => simp [hc] at h
    | some out1 =>
      rw [hc] at h
      have h1 := printChain_some _ _ _ _ hc
      have h2 := ih (i + 1) out1 (by omega) h
      have hshift : (fun k : Nat => (b (i + 1 + k)).map Out.listed) =
          (fun k : Nat => (b (i + (k + 1))).map Out.listed) := by
        funext k
        rw [Nat.add_assoc, Nat.add_comm 1 k]
      rw [h2, h1, List.range_succ_eq_map, List.flatMap_cons, List.flatMap_map, hshift]
      simp [Function.comp_def]

theorem printBuckets_none_of_mem (fuel : Nat) (t : Table) (n i : Nat) (out : List Out)
    (k : Nat) (hk : k < n) (hin : i + n ≤ 101) (hik : i + k < 101)
    (h : ([] : Str) ∈ t ⟨i + k, hik⟩) :
    printBuckets fuel t n i out = none := by
  induction n generalizing i out k with
  | zero => omega
  | succ n ih =>
    have hi : i < 101 := by omega
    rw [printBuckets, dif_pos hi]
    cases k with
    | zero =>
      have h0 : ([] : Str) ∈ t ⟨i, hi⟩ := h
      rw [printChain_none_of_mem fuel _ out h0]
    | succ k =>
      cases printChain fuel (t ⟨i, hi⟩) out with
      | none => rfl
      | some out1 =>
        simp only
        have hik2 : i + 1 + k < 101 := by omega
        apply ih (i + 1) out1 k (by omega) (by omega) hik2
        have he : (⟨i + 1 + k, hik2⟩ : Fin 101) = ⟨i + (k + 1), hik⟩ := by
          apply Fin.ext
          simp only
          omega
        rw [he]
        exact h

/-- A table with an empty word in one of its buckets is never printed to the end: the
traversal is still running after any number of iterations. -/
theorem printTable_none_of_mem (t : Table) (i : Fin 101) (h : ([] : Str) ∈ t i) (fuel : Nat) :
    printTable fuel t = none := by
  unfold printTable
  have hik : 0 + i.val < 101 := by have := i.isLt; omega
  apply printBuckets_none_of_mem fuel t 101 0 [] i.val i.isLt (by omega) hik
  have he : (⟨0 + i.val, hik⟩ : Fin 101) = i := by
    apply Fin.ext
    simp
  rw [he]
  exact h

/-- The lines of a finished traversal of a built table: the buckets `0 .. 100` in turn,
each holding the words that hash to it, in insertion order. -/
theorem printTable_groupTable (sg : Bool) (words : List Str) (hne : ∀ w ∈ words, w ≠ [])
    (fuel : Nat) (hfuel : words.length < fuel) :
    printTable fuel (groupTable sg words) =
      some (((List.range 101).flatMap
        (fun i => words.filter (fun w => decide (string_hash sg w = (i : Int))))).map
          Out.listed) := by
  have h := printBuckets_eq fuel (groupTable sg words)
    (fun i => words.filter (fun w => decide (string_hash sg w = (i : Int))))
    (fun _ _ => rfl) 101 0 [] (by omega)
    (fun k _ w hw => hne w (List.mem_filter.mp hw).1)
    (fun k _ => lt_of_le_of_lt (List.length_filter_le _ _) hfuel)
  rw [List.map_flatMap]
  simpa [printTable] using h

/-- Whatever the fuel, a traversal of a built table that ends has printed the buckets
`0 .. 100` in turn. -/
theorem printTable_groupTable_some (sg : Bool) (words : List Str) (fuel : Nat) (r : List Out)
    (h : printTable fuel (groupTable sg words) = some r) :
    r = ((List.range 101).flatMap
      (fun i => words.filter (fun w => decide (string_hash sg w = (i : Int))))).map
        Out.listed := by
  have h1 := printBuckets_some fuel (groupTable sg words)
    (fun i => words.filter (fun w => decide (string_hash sg w = (i : Int))))
    (fun _ _ => rfl) 101 0 [] r (by omega) h
  rw [List.map_flatMap]
  simpa using h1

theorem printTable_groupTable_none (sg : Bool) (words : List Str) (h : ([] : Str) ∈ words)
    (fuel : Nat) : printTable fuel (groupTable sg words) = none := by
  apply printTable_none_of_mem _ 0
  exact (mem_groupTable sg words 0 []).mpr ⟨h, by rw [string_hash_nil]; rfl⟩

/-! ## What holds for valid bucket indices -/

/-- For words and a query with valid bucket indices, `compare` prints the no-match line if
and only if no inserted word has the query as its sorted form. -/
theorem compare_noMatch_iff_of_valid (sg : Bool) (words : List Str) (k : Str)
    (hvalid : ∀ w ∈ words, 0 ≤ string_hash sg w ∧ string_hash sg w < TABLE_SIZE)
    (hk : 0 ≤ string_hash sg k ∧ string_hash sg k < TABLE_SIZE) :
    ((buildTable sg words).bind (fun t => compare sg t k) = some [Out.noMatch] ↔
      ∀ w ∈ words, sortString sg w ≠ k) ∧
    compare sg emptyTable k = some [Out.noMatch] := by
  constructor
  · rw [buildTable_eq sg words hvalid, Option.some_bind, compare_groupTable sg words k hk,
      ← firstMatch_eq_none]
    cases firstMatch sg words k <;> simp
  · obtain ⟨i, hc, _⟩ := cellOf_of_valid _ hk
    exact compare_eq_noMatch sg emptyTable k i hc (by simp [emptyTable])

/-- For words with valid bucket indices the table is built, every entry of bucket `i` has
`i` as the bucket index of its sorted form, and every inserted word is stored in that
bucket and in no other. -/
theorem index_invariant_of_valid (sg : Bool) (words : List Str)
    (hvalid : ∀ w ∈ words, 0 ≤ string_hash sg w ∧ string_hash sg w < TABLE_SIZE) :
    ∃ t : Table, buildTable sg words = some t ∧
      (∀ (i : Fin 101) (e : Str), e ∈ t i → string_hash sg (sortString sg e) = (i.val : Int)) ∧
      (∀ w ∈ words, ∃ i : Fin 101, cellOf (string_hash sg (sortString sg w)) = some i ∧
        w ∈ t i ∧ ∀ j : Fin 101, j ≠ i → w ∉ t j) := by
  refine ⟨groupTable sg words, buildTable_eq sg words hvalid, ?_, ?_⟩
  · intro i e he
    rw [string_hash_sortString]
    exact ((mem_groupTable sg words i e).mp he).2
  · intro w hw
    have hv := hvalid w hw
    rw [← string_hash_sortString sg w] at hv
    obtain ⟨i, hc, hi⟩ := cellOf_of_valid _ hv
    refine ⟨i, hc, ?_, ?_⟩
    · rw [string_hash_sortString] at hi
      exact (mem_groupTable sg words i w).mpr ⟨hw, hi.symm⟩
    · intro j hj hmem
      apply hj
      have h1 := ((mem_groupTable sg words j w).mp hmem).2
      rw [string_hash_sortString] at hi
      apply Fin.ext
      have : (j.val : Int) = (i.val : Int) := by rw [← h1, hi]
      exact_mod_cast this

/-- For a word with a valid bucket index, `addToTable` appends the word to the bucket so
numbered and leaves every other bucket as it is. -/
theorem addToTable_frame_of_valid (sg : Bool) (t : Table) (w : Str)
    (hvalid : 0 ≤ string_hash sg w ∧ string_hash sg w < TABLE_SIZE) :
    ∃ (t1 : Table) (i : Fin 101), addToTable sg t w = some t1 ∧
      (i.val : Int) = string_hash sg w ∧ t1 i = t i ++ [w] ∧
      ∀ j : Fin 101, j ≠ i → t1 j = t j := by
  obtain ⟨i, hc, hi⟩ := cellOf_of_valid _ hvalid
  refine ⟨_, i, addToTable_of_cell sg t w i hc, hi, by simp, ?_⟩
  intro j hj
  exact Function.update_noteq hj _ _

/-- For words with valid bucket indices, bucket `string_hash w` holds `w` as often as it
was inserted, and no other bucket holds it. -/
theorem no_deduplication_of_valid (sg : Bool) (words : List Str) (w : Str)
    (hvalid : ∀ v ∈ words, 0 ≤ string_hash sg v ∧ string_hash sg v < TABLE_SIZE) :
    ∃ t : Table, buildTable sg words = some t ∧
      ∀ i : Fin 101, (t i).count w =
        if string_hash sg w = (i.val : Int) then words.count w else 0 := by
  refine ⟨groupTable sg words, buildTable_eq sg words hvalid, ?_⟩
  intro i
  by_cases h : string_hash sg w = (i.val : Int)
  · rw [if_pos h, groupTable_count sg words i w h]
  · rw [if_neg h, List.count_eq_zero]
    intro hmem
    exact h ((mem_groupTable sg words i w).mp hmem).2

/-- For lines with valid bucket indices, the loop of `openDictionary` builds the table of
the non-empty lines, which holds no empty word and is printed to the end. -/
theorem openDictionary_of_valid (sg : Bool) (lines : List Str)
    (hvalid : ∀ l ∈ lines, 0 ≤ string_hash sg l ∧ string_hash sg l < TABLE_SIZE) :
    ∃ t : Table, openDictionary sg lines emptyTable = some t ∧
      t = groupTable sg (lines.filter (fun l => decide (l ≠ []))) ∧
      (∀ i : Fin 101, ([] : Str) ∉ t i) ∧
      (∀ fuel : Nat, lines.length < fuel → ∃ r, printTable fuel t = some r) := by
  have hv : ∀ l ∈ lines.filter (fun l => decide (l ≠ [])),
      0 ≤ string_hash sg l ∧ string_hash sg l < TABLE_SIZE :=
    fun l hl => hvalid l (List.mem_filter.mp hl).1
  refine ⟨_, ?_, rfl, ?_, ?_⟩
  · rw [openDictionary_emptyTable, buildTable_eq sg _ hv]
  · intro i hmem
    have h1 := ((mem_groupTable sg _ i []).mp hmem).1
    simp at h1
  · intro fuel hfuel
    refine ⟨_, printTable_groupTable sg _ ?_ fuel ?_⟩
    · intro w hw
      simpa using (List.mem_filter.mp hw).2
    · exact lt_of_le_of_lt (List.length_filter_le _ _) hfuel


theorem compare_addToTable_found (sg : Bool) (t : Table) (w : Str)
    (hvalid : 0 ≤ string_hash sg w ∧ string_hash sg w < TABLE_SIZE) :
    ∃ (t1 : Table) (i : Fin 101), addToTable sg t w = some t1 ∧
      cellOf (string_hash sg (sortString sg w)) = some i ∧ w ∈ t1 i ∧
      ∃ v, compare sg t1 (sortString sg w) = some [Out.theWordIs v] := by
  obtain ⟨i, hc, _⟩ := cellOf_of_valid _ hvalid
  have hc2 : cellOf (string_hash sg (sortString sg w)) = some i := by
    rw [string_hash_sortString]; exact hc
  have hmem : w ∈ Function.update t i (t i ++ [w]) i := by simp
  refine ⟨_, i, addToTable_of_cell sg t w i hc, hc2, hmem, ?_⟩
  rw [compare_of_cell sg _ _ i hc2]
  cases hf : List.find? (fun v => decide (sortString sg v = sortString sg w))
      (Function.update t i (t i ++ [w]) i) with
  | none =>
    rw [List.find?_eq_none] at hf
    have := hf w hmem
    simp at this
  | some v => exact ⟨v, rfl⟩

/-- The scenario of the dictionary lines `cat`, the empty line, `act`, `dog`: the loaded
table holds `cat`, `act` (bucket 9) and `dog` (bucket 11), is printed in that order, and the
sorted form of `tac` finds `cat`. -/
theorem openDictionary_scenario :
    (openDictionary true [str "cat", [], str "act", str "dog"] emptyTable).map (fun t => t 9) =
      some [str "cat", str "act"] ∧
    (openDictionary true [str "cat", [], str "act", str "dog"] emptyTable).map (fun t => t 11) =
      some [str "dog"] ∧
    (openDictionary true [str "cat", [], str "act", str "dog"] emptyTable).bind (printTable 5) =
      some [Out.listed (str "cat"), Out.listed (str "act"), Out.listed (str "dog")] ∧
    (openDictionary true [str "cat", [], str "act", str "dog"] emptyTable).bind
      (fun t => compare true t (sortString true (str "tac"))) =
      some [Out.theWordIs (str "cat")] := by
  decide

/-! ## The claims -/

set_option maxRecDepth 100000

/-- C1, as stated, fails on strings with a NUL byte: the word `a\0b` is stored in bucket
97, the query `b\0a` is an anagram of it, its sorted form is `b\0a` itself and is looked
up in bucket 98, and `compare` prints the no-match line. -/
theorem C1_counterexample :
    Anagram [97, 0, 98] [98, 0, 97] ∧
    (buildTable true [[97, 0, 98]]).bind
      (fun t => compare true t (sortString true [98, 0, 97])) = some [Out.noMatch] ∧
    (buildTable false [[97, 0, 98]]).bind
      (fun t => compare false t (sortString false [98, 0, 97])) = some [Out.noMatch] := by
  decide

/-- C1 (amended): for every list of words `words`, each with a valid bucket index, and
every NUL-free string `q`, after the words are inserted in order into the empty table,
`compare` called with `sortString q` prints exactly one line whenever some word is an
anagram of `q`: the line naming the earliest-inserted anagram of `q`, unmodified. -/
theorem C1_compare_reports_earliest_anagram (sg : Bool) (words : List Str) (q : Str)
    (hvalid : ∀ w ∈ words, 0 ≤ string_hash sg w ∧ string_hash sg w < TABLE_SIZE)
    (hq : NulFree q) (h : ∃ w ∈ words, Anagram w q) :
    ∃ (earlier : List Str) (w : Str) (later : List Str),
      words = earlier ++ w :: later ∧ Anagram w q ∧ (∀ v ∈ earlier, ¬ Anagram v q) ∧
      (buildTable sg words).bind (fun t => compare sg t (sortString sg q)) =
        some [Out.theWordIs w] := by
  obtain ⟨w0, hw0, ha0⟩ := h
  have hk0 : sortString sg w0 = sortString sg q :=
    (sortString_eq_of_perm sg q w0 ha0.symm hq).symm
  have hkv : 0 ≤ string_hash sg (sortString sg q) ∧
      string_hash sg (sortString sg q) < TABLE_SIZE := by
    rw [← hk0, string_hash_sortString]
    exact hvalid w0 hw0
  obtain ⟨w, hw⟩ := firstMatch_isSome sg words (sortString sg q) ⟨w0, hw0, hk0⟩
  obtain ⟨hk, earlier, later, hsplit, hnone⟩ := firstMatch_eq_some sg words _ w hw
  refine ⟨earlier, w, later, hsplit, perm_of_sortString_eq sg w q hk, ?_, ?_⟩
  · intro v hv hav
    exact hnone v hv (sortString_eq_of_perm sg q v hav.symm hq).symm
  · rw [buildTable_eq sg words hvalid, Option.some_bind, compare_groupTable sg words _ hkv, hw]

/-- C1, witness: with the words `listen`, `silent` inserted in this order, the queries built
from `silent`, `enlist` and `listen` all report `listen`. -/
theorem C1_compare_reports_earliest_anagram_witness :
    ((buildTable true [str "listen", str "silent"]).bind
        (fun t => compare true t (sortString true (str "silent")))
        = some [Out.theWordIs (str "listen")] ∧
      (buildTable true [str "listen", str "silent"]).bind
        (fun t => compare true t (sortString true (str "enlist")))
        = some [Out.theWordIs (str "listen")] ∧
      (buildTable true [str "listen", str "silent"]).bind
        (fun t => compare true t (sortString true (str "listen")))
        = some [Out.theWordIs (str "listen")]) ∧
    (∀ w ∈ [str "listen", str "silent"],
      0 ≤ string_hash true w ∧ string_hash true w < TABLE_SIZE) ∧
    NulFree (str "silent") ∧
    ∃ (earlier : List Str) (w : Str) (later : List Str),
      [str "listen", str "silent"] = earlier ++ w :: later ∧ Anagram w (str "silent") ∧
      (∀ v ∈ earlier, ¬ Anagram v (str "silent")) ∧
      (buildTable true [str "listen", str "silent"]).bind
        (fun t => compare true t (sortString true (str "silent")))
        = some [Out.theWordIs w] :=
  ⟨by decide, by decide, by decide,
    C1_compare_reports_earliest_anagram true [str "listen", str "silent"] (str "silent")
      (by decide) (by decide) ⟨str "listen", by decide, by decide⟩⟩

/-- C2, failing input: where `char` is signed, the query `\xFF` is its own sorted form and
hashes to -1; on the empty table `compare` reads `hash_table[-1]`, outside the array, and
no no-match line is the defined outcome. -/
theorem C2_compare_reads_outside_table :
    sortString true [255] = [255] ∧ string_hash true [255] = -1 ∧
    compare true emptyTable [255] = none ∧
    compare true emptyTable [255] ≠ some [Out.noMatch] := by
  decide

/-- C3, as stated, fails: in `b\0a` the loop of `sortString` stops at the NUL byte, so the
string is returned as it is, which is not in non-decreasing order; and where `char` is
signed, the byte 233 has the value -23 and is sorted before the letter `a` (byte 97). -/
theorem C3_counterexample :
    sortString true [98, 0, 97] = [98, 0, 97] ∧ sortString false [98, 0, 97] = [98, 0, 97] ∧
    ¬ List.Sorted byteLe [98, 0, 97] ∧
    ¬ List.Sorted (charLe true) [98, 0, 97] ∧ ¬ List.Sorted (charLe false) [98, 0, 97] ∧
    sortString true [97, 233] = [233, 97] ∧ ¬ List.Sorted byteLe [233, 97] := by
  decide

/-- C3 (amended): for every NUL-free string `w`, `sortString w` is a permutation of the
characters of `w` (same multiset, same length) whose characters are in non-decreasing
order of their `char` values; that is non-decreasing byte-value order when `char` is
unsigned or every character of `w` is ASCII. -/
theorem C3_sortString_sorted_permutation (sg : Bool) (w : Str) (h : NulFree w) :
    (sortString sg w).Perm w ∧ (sortString sg w).length = w.length ∧
    List.Sorted (charLe sg) (sortString sg w) ∧
    ((sg = false ∨ ∀ c ∈ w, c.val < 128) → List.Sorted byteLe (sortString sg w)) := by
  have hp := sortString_perm sg w
  have hs : List.Sorted (charLe sg) (sortString sg w) := by
    rw [sortString_of_nulFree sg w h]
    exact List.sorted_insertionSort _ _
  refine ⟨hp, hp.length_eq, hs, ?_⟩
  intro hplat
  refine List.Pairwise.imp_of_mem ?_ hs
  intro a b ha hb hab
  unfold charLe at hab
  unfold byteLe
  rcases hplat with hsg | hascii
  · subst hsg
    rw [charVal_unsigned, charVal_unsigned] at hab
    exact_mod_cast hab
  · rw [charVal_ascii sg a (hascii a (hp.mem_iff.mp ha)),
      charVal_ascii sg b (hascii b (hp.mem_iff.mp hb))] at hab
    exact_mod_cast hab

/-- C3, witness: the word `listen`. -/
theorem C3_sortString_sorted_permutation_witness :
    NulFree (str "listen") ∧ sortString true (str "listen") = str "eilnst" ∧
    ((sortString true (str "listen")).Perm (str "listen") ∧
      (sortString true (str "listen")).length = (str "listen").length ∧
      List.Sorted (charLe true) (sortString true (str "listen")) ∧
      ((true = false ∨ ∀ c ∈ str "listen", c.val < 128) →
        List.Sorted byteLe (sortString true (str "listen")))) :=
  ⟨by decide, by decide, C3_sortString_sorted_permutation true (str "listen") (by decide)⟩

/-- C4, as stated, fails: `a\0b` and `b\0a` hold the same multiset of characters, but
`sortString` leaves both as they are, so their sorted forms differ. -/
theorem C4_counterexample :
    Anagram [97, 0, 98] [98, 0, 97] ∧
    sortString true [97, 0, 98] ≠ sortString true [98, 0, 97] ∧
    sortString false [97, 0, 98] ≠ sortString false [98, 0, 97] := by
  decide

/-- C4 (amended): for every two strings `w1` and `w2` of which at least one is NUL-free,
`w1` and `w2` have the same multiset of characters if and only if
`sortString w1 = sortString w2`, byte for byte. -/
theorem C4_anagram_iff_sortString_eq (sg : Bool) (w1 w2 : Str)
    (h : NulFree w1 ∨ NulFree w2) :
    Anagram w1 w2 ↔ sortString sg w1 = sortString sg w2 := by
  constructor
  · intro ha
    rcases h with h1 | h2
    · exact sortString_eq_of_perm sg w1 w2 ha h1
    · exact (sortString_eq_of_perm sg w2 w1 ha.symm h2).symm
  · exact perm_of_sortString_eq sg w1 w2

/-- C4, witness: `listen` and `silent` are anagrams with the same sorted form; `listen` and
`listed` are neither. -/
theorem C4_anagram_iff_sortString_eq_witness :
    (NulFree (str "listen") ∨ NulFree (str "silent")) ∧
    Anagram (str "listen") (str "silent") ∧ ¬ Anagram (str "listen") (str "listed") ∧
    (Anagram (str "listen") (str "silent") ↔
      sortString true (str "listen") = sortString true (str "silent")) :=
  ⟨Or.inl (by decide), by decide, by decide,
    C4_anagram_iff_sortString_eq true (str "listen") (str "silent") (Or.inl (by decide))⟩

/-- C5, failing input: where `char` is signed, the one-byte word `\xE9` sums to -23, and
`-23 % 101` is -23 in C++; `string_hash` returns -23, which is not an index of the table. -/
theorem C5_string_hash_negative_index :
    string_hash true [233] = -23 ∧
    ¬ (0 ≤ string_hash true [233] ∧ string_hash true [233] < TABLE_SIZE) := by
  decide

/-- C6, as stated, fails in its second part: `a\0b` and `b\0a` are anagrams of each other,
but only the characters before the NUL byte are summed, so the first is placed in bucket
97 and the second in bucket 98. -/
theorem C6_counterexample :
    Anagram [97, 0, 98] [98, 0, 97] ∧
    string_hash true [97, 0, 98] = 97 ∧ string_hash true [98, 0, 97] = 98 ∧
    string_hash false [97, 0, 98] = 97 ∧ string_hash false [98, 0, 97] = 98 ∧
    (buildTable true [[97, 0, 98], [98, 0, 97]]).map (fun t => t 97) = some [[97, 0, 98]] ∧
    (buildTable true [[97, 0, 98], [98, 0, 97]]).map (fun t => t 98) = some [[98, 0, 97]] := by
  decide

/-- C6 (amended): for every word `w`, `string_hash w = string_hash (sortString w)`, so for
a word with a valid bucket index `addToTable`, which hashes the raw word, stores `w` in the
bucket of its normalized form, the bucket `compare` scans when called with that form, and
`compare` then reports a word.  Consequently, for every two words that are anagrams of
each other, of which at least one is NUL-free, the normalized forms are equal and, the
bucket index being valid, `addToTable` places both in that same bucket. -/
theorem C6_raw_hash_is_normalized_bucket (sg : Bool) (w : Str) (t : Table) :
    string_hash sg w = string_hash sg (sortString sg w) ∧
    ((0 ≤ string_hash sg w ∧ string_hash sg w < TABLE_SIZE) →
      ∃ (t1 : Table) (i : Fin 101), addToTable sg t w = some t1 ∧
        cellOf (string_hash sg (sortString sg w)) = some i ∧ w ∈ t1 i ∧
        ∃ v, compare sg t1 (sortString sg w) = some [Out.theWordIs v]) ∧
    ∀ w2 : Str, (NulFree w ∨ NulFree w2) → Anagram w w2 →
      sortString sg w2 = sortString sg w ∧ string_hash sg w2 = string_hash sg w ∧
      ((0 ≤ string_hash sg w ∧ string_hash sg w < TABLE_SIZE) →
        ∃ (t2 : Table) (i : Fin 101), addToTable sg t w2 = some t2 ∧
          cellOf (string_hash sg (sortString sg w)) = some i ∧ w2 ∈ t2 i) := by
  refine ⟨(string_hash_sortString sg w).symm, compare_addToTable_found sg t w, ?_⟩
  intro w2 hnf ha
  have hs : sortString sg w2 = sortString sg w := by
    rcases hnf with h1 | h2
    · exact (sortString_eq_of_perm sg w w2 ha h1).symm
    · exact sortString_eq_of_perm sg w2 w ha.symm h2
  have hh : string_hash sg w2 = string_hash sg w := string_hash_eq_of_sortString_eq sg w2 w hs
  refine ⟨hs, hh, ?_⟩
  intro hv
  obtain ⟨t2, i, h1, h2, h3, _⟩ := compare_addToTable_found sg t w2 (by rw [hh]; exact hv)
  exact ⟨t2, i, h1, by rw [← hs]; exact h2, h3⟩

/-- C6, witness: `listen` and its anagram `silent` share the sorted form `eilnst` and are
both placed in bucket 49, the bucket of `eilnst`, where `compare` finds a word. -/
theorem C6_raw_hash_is_normalized_bucket_witness :
    (NulFree (str "listen") ∨ NulFree (str "silent")) ∧
    Anagram (str "listen") (str "silent") ∧
    string_hash true (str "eilnst") = 49 ∧
    (0 ≤ string_hash true (str "listen") ∧ string_hash true (str "listen") < TABLE_SIZE) ∧
    (∃ (t1 : Table) (i : Fin 101), addToTable true emptyTable (str "listen") = some t1 ∧
      cellOf (string_hash true (sortString true (str "listen"))) = some i ∧
      str "listen" ∈ t1 i ∧
      ∃ v, compare true t1 (sortString true (str "listen")) = some [Out.theWordIs v]) ∧
    sortString true (str "silent") = sortString true (str "listen") ∧
    string_hash true (str "silent") = string_hash true (str "listen") ∧
    (∃ (t2 : Table) (i : Fin 101), addToTable true emptyTable (str "silent") = some t2 ∧
      cellOf (string_hash true (sortString true (str "listen"))) = some i ∧
      str "silent" ∈ t2 i) :=
  ⟨Or.inl (by decide), by decide, by decide, by decide,
    (C6_raw_hash_is_normalized_bucket true (str "listen") emptyTable).2.1 (by decide),
    ((C6_raw_hash_is_normalized_bucket true (str "listen") emptyTable).2.2 (str "silent")
      (Or.inl (by decide)) (by decide)).1,
    ((C6_raw_hash_is_normalized_bucket true (str "listen") emptyTable).2.2 (str "silent")
      (Or.inl (by decide)) (by decide)).2.1,
    ((C6_raw_hash_is_normalized_bucket true (str "listen") emptyTable).2.2 (str "silent")
      (Or.inl (by decide)) (by decide)).2.2 (by decide)⟩

/-- C7, failing input: where `char` is signed, the word `\xE9` and its sorted form hash to
-23, which is no cell of the array; `addToTable` writes `hash_table[-23]`, so after the
call the word is stored in none of the buckets `0 .. 100`. -/
theorem C7_word_stored_outside_table :
    string_hash true (sortString true [233]) = -23 ∧ cellOf (-23) = none ∧
    addToTable true emptyTable [233] = none ∧
    buildTable true [str "cat", [233]] = none := by
  decide

/-- C8, failing input: where `char` is signed, the word `\xFF` hashes to -1; whatever the
table, `addToTable` reads and writes `hash_table[-1]`, outside the array, and appends the
word to no bucket. -/
theorem C8_addToTable_writes_outside_table :
    string_hash true [255] = -1 ∧ (∀ t : Table, addToTable true t [255] = none) :=
  ⟨by decide, fun t => addToTable_eq_none true t [255] (by decide)⟩

/-- C9, as stated, fails: after `b` and then `a` are inserted, `printTable` lists `a`
(bucket 97) before `b` (bucket 98), and no run of it lists `b` before `a`. -/
theorem C9_counterexample :
    (buildTable true [str "b", str "a"]).bind (printTable 2) =
      some [Out.listed (str "a"), Out.listed (str "b")] ∧
    (buildTable false [str "b", str "a"]).bind (printTable 2) =
      some [Out.listed (str "a"), Out.listed (str "b")] ∧
    (∀ fuel : Nat, (buildTable true [str "b", str "a"]).bind (printTable fuel) ≠
      some [Out.listed (str "b"), Out.listed (str "a")]) ∧
    (∀ fuel : Nat, (buildTable false [str "b", str "a"]).bind (printTable fuel) ≠
      some [Out.listed (str "b"), Out.listed (str "a")]) := by
  refine ⟨by decide, by decide, ?_, ?_⟩
  · intro fuel h
    rw [buildTable_eq true _ (by decide), Option.some_bind] at h
    exact absurd (printTable_groupTable_some true _ fuel _ h) (by decide)
  · intro fuel h
    rw [buildTable_eq false _ (by decide), Option.some_bind] at h
    exact absurd (printTable_groupTable_some false _ fuel _ h) (by decide)

/-- C9 (amended): after inserting the non-empty words `words`, each with a valid bucket
index, in order into the empty table, the traversal of `printTable` ends and yields the
words of `words`, each as often as it was inserted (a permutation of `words`, no dedup),
ordered by bucket index and, within a bucket, by insertion; it yields exactly `words` in
the same order when `words` is in non-decreasing order of bucket index. -/
theorem C9_printTable_yields_words_by_bucket (sg : Bool) (words : List Str)
    (hne : ∀ w ∈ words, w ≠ [])
    (hvalid : ∀ w ∈ words, 0 ≤ string_hash sg w ∧ string_hash sg w < TABLE_SIZE)
    (fuel : Nat) (hfuel : words.length < fuel) :
    ∃ listing : List Str,
      (buildTable sg words).bind (printTable fuel) = some (listing.map Out.listed) ∧
      listing = (List.range 101).flatMap
        (fun i => words.filter (fun w => decide (string_hash sg w = (i : Int)))) ∧
      listing.Perm words ∧
      (words.Pairwise (fun a b => string_hash sg a ≤ string_hash sg b) → listing = words) := by
  refine ⟨_, ?_, rfl, ?_, ?_⟩
  · rw [buildTable_eq sg words hvalid, Option.some_bind,
      printTable_groupTable sg words hne fuel hfuel]
  · exact flatMap_filter_perm (string_hash sg) 101 words hvalid
  · intro hs
    exact flatMap_filter_of_sorted (string_hash sg) 101 words hs hvalid

/-- C9, witness: `dog` (bucket 11), `cat` and `act` (bucket 9) are listed as `cat`, `act`,
`dog`. -/
theorem C9_printTable_yields_words_by_bucket_witness :
    (∀ w ∈ [str "dog", str "cat", str "act"], w ≠ []) ∧
    (∀ w ∈ [str "dog", str "cat", str "act"],
      0 ≤ string_hash true w ∧ string_hash true w < TABLE_SIZE) ∧
    (buildTable true [str "dog", str "cat", str "act"]).bind (printTable 4) =
      some [Out.listed (str "cat"), Out.listed (str "act"), Out.listed (str "dog")] ∧
    ∃ listing : List Str,
      (buildTable true [str "dog", str "cat", str "act"]).bind (printTable 4) =
        some (listing.map Out.listed) ∧
      listing = (List.range 101).flatMap
        (fun i => [str "dog", str "cat", str "act"].filter
          (fun w => decide (string_hash true w = (i : Int)))) ∧
      listing.Perm [str "dog", str "cat", str "act"] ∧
      ([str "dog", str "cat", str "act"].Pairwise
          (fun a b => string_hash true a ≤ string_hash true b) →
        listing = [str "dog", str "cat", str "act"]) :=
  ⟨by decide, by decide, by decide,
    C9_printTable_yields_words_by_bucket true [str "dog", str "cat", str "act"]
      (by decide) (by decide) 4 (by decide)⟩

/-- C11, failing input: once `addToTable` was called with the empty word, which goes to
bucket 0, the inner loop of `printTable` takes the `continue` branch on that node without
moving `temp_ptr`; whatever the number of iterations granted, the traversal has not ended,
and the words `cat` and `dog` of the later buckets are never reached. -/
theorem C11_printTable_never_ends_on_empty_word :
    (buildTable true [str "cat", [], str "dog"]).map (fun t => t 0) = some [[]] ∧
    (buildTable false [str "cat", [], str "dog"]).map (fun t => t 0) = some [[]] ∧
    (∀ fuel : Nat,
      (buildTable true [str "cat", [], str "dog"]).bind (printTable fuel) = none) ∧
    (∀ fuel : Nat,
      (buildTable false [str "cat", [], str "dog"]).bind (printTable fuel) = none) := by
  refine ⟨by decide, by decide, ?_, ?_⟩
  · intro fuel
    rw [buildTable_eq true _ (by decide), Option.some_bind]
    exact printTable_groupTable_none true _ (by decide) fuel
  · intro fuel
    rw [buildTable_eq false _ (by decide), Option.some_bind]
    exact printTable_groupTable_none false _ (by decide) fuel

/-- C12, failing input: where `char` is signed, the word `\xE9` hashes to -23; inserted
twice, it is written outside the array both times, and no bucket of the table holds two
entries of it. -/
theorem C12_word_inserted_twice_outside_table :
    string_hash true [233] = -23 ∧ List.count ([233] : Str) [[233], [233]] = 2 ∧
    buildTable true [[233], [233]] = none ∧
    (∀ t : Table, addToTable true t [233] = none) :=
  ⟨by decide, by decide, by decide, fun t => addToTable_eq_none true t [233] (by decide)⟩

/-- C13, failing input: where `char` is signed, the dictionary lines `cat` and `\xFF` make
the loop of `openDictionary` call `addToTable` with a word that hashes to -1; the write
goes outside the array and no table holding exactly the two lines results. -/
theorem C13_loader_writes_outside_table :
    string_hash true [255] = -1 ∧
    openDictionary true [str "cat", [255]] emptyTable = none := by
  decide

/-- C14: for every string `w`, `sortString (sortString w) = sortString w`; in particular
the empty string is sorted to the empty string. -/
theorem C14_sortString_idempotent (sg : Bool) (w : Str) :
    sortString sg (sortString sg w) = sortString sg w ∧ sortString sg [] = [] :=
  ⟨sortString_idem sg w, rfl⟩

/-- C15, as stated, fails: in `a\0b` only the `a` before the NUL byte is summed, giving 97
and not `(97 + 0 + 98) % 101 = 94`; and where `char` is signed the byte 233 is summed as
-23, giving -23 and not `233 % 101 = 31`. -/
theorem C15_counterexample :
    string_hash true [97, 0, 98] = 97 ∧ string_hash false [97, 0, 98] = 97 ∧
    byteSum [97, 0, 98] % 101 = 94 ∧
    string_hash true [233] = -23 ∧ byteSum [233] % 101 = 31 := by
  decide

/-- C15 (amended): for every string `s` of fewer than `2^23` characters, all of them ASCII
or `char` being unsigned, `string_hash s` equals the sum of the byte values of the
characters of `s` before its first NUL byte, reduced modulo 101; for a NUL-free `s` that
is the sum of the byte values of every character of `s`, reduced modulo 101. -/
theorem C15_string_hash_is_byte_sum_mod (sg : Bool) (s : Str)
    (hplat : sg = false ∨ ∀ c ∈ s, c.val < 128) (hlen : s.length < 8388608) :
    string_hash sg s = ((byteSum (beforeNul s) % 101 : Nat) : Int) ∧
    (NulFree s → string_hash sg s = ((byteSum s % 101 : Nat) : Int)) := by
  have h := string_hash_eq_byteSum sg s hplat hlen
  refine ⟨h, ?_⟩
  intro hnf
  rw [h, beforeNul_of_nulFree s hnf]

/-- C15, witness: `listen` sums to 655, and `655 % 101 = 49`. -/
theorem C15_string_hash_is_byte_sum_mod_witness :
    (true = false ∨ ∀ c ∈ str "listen", c.val < 128) ∧ (str "listen").length < 8388608 ∧
    byteSum (str "listen") = 655 ∧ string_hash true (str "listen") = 49 ∧
    (string_hash true (str "listen") = ((byteSum (beforeNul (str "listen")) % 101 : Nat) : Int) ∧
      (NulFree (str "listen") →
        string_hash true (str "listen") = ((byteSum (str "listen") % 101 : Nat) : Int))) :=
  ⟨Or.inr (by decide), by decide, by decide, by decide,
    C15_string_hash_is_byte_sum_mod true (str "listen") (Or.inr (by decide)) (by decide)⟩

/-- C17, as stated, fails where `char` is signed: the bytes of the NUL-free query `\xE9a`
(233, 97) are not in non-decreasing order, yet it is the sorted form of the stored word
`a\xE9`, and `compare` reports that word; and for the unsorted query `\xFF\xFE`, which
hashes to -3, `compare` reads outside the array and no no-match line is the defined
outcome. -/
theorem C17_counterexample :
    NulFree [233, 97] ∧ ¬ List.Sorted byteLe [233, 97] ∧
    string_hash true [233, 97] = 74 ∧
    (buildTable true [[97, 233]]).bind (fun t => compare true t [233, 97]) =
      some [Out.theWordIs [97, 233]] ∧
    NulFree [255, 254] ∧ ¬ List.Sorted (charLe true) [255, 254] ∧
    ¬ List.Sorted byteLe [255, 254] ∧ string_hash true [255, 254] = -3 ∧
    compare true emptyTable [255, 254] = none := by
  decide

/-- C17 (amended): `compare` does not normalize its argument.  For every table and every
NUL-free query `q` with a valid bucket index whose characters are not in non-decreasing
order of their `char` values, the order `sortString` sorts by, `compare` prints the
no-match line, whatever words the table holds.  That order is the order of the byte
values when `char` is unsigned or `q` is ASCII. -/
theorem C17_compare_does_not_normalize (sg : Bool) (t : Table) (q : Str) (hq : NulFree q)
    (hvalid : 0 ≤ string_hash sg q ∧ string_hash sg q < TABLE_SIZE) :
    (¬ List.Sorted (charLe sg) q → compare sg t q = some [Out.noMatch]) ∧
    ((sg = false ∨ ∀ c ∈ q, c.val < 128) → ¬ List.Sorted byteLe q →
      compare sg t q = some [Out.noMatch]) := by
  obtain ⟨i, hc, _⟩ := cellOf_of_valid _ hvalid
  have main : ¬ List.Sorted (charLe sg) q → compare sg t q = some [Out.noMatch] := by
    intro hns
    apply compare_eq_noMatch sg t q i hc
    intro w _ hw
    exact hns (sortString_eq_of_eq_nulFree sg w q hq hw)
  refine ⟨main, ?_⟩
  intro hplat hns
  exact main (fun hs => hns (sorted_byteLe_of_charLe sg q hplat hs))

/-- C17, witness: the table holds `tac` and its anagram `cat`; the unsorted query `tac`
is not found, its sorted form `act` is. -/
theorem C17_compare_does_not_normalize_witness :
    NulFree (str "tac") ∧
    (0 ≤ string_hash true (str "tac") ∧ string_hash true (str "tac") < TABLE_SIZE) ∧
    ¬ List.Sorted (charLe true) (str "tac") ∧
    compare true (groupTable true [str "tac", str "cat"]) (sortString true (str "tac")) =
      some [Out.theWordIs (str "tac")] ∧
    compare true (groupTable true [str "tac", str "cat"]) (str "tac") = some [Out.noMatch] :=
  ⟨by decide, by decide, by decide, by decide,
    (C17_compare_does_not_normalize true (groupTable true [str "tac", str "cat"]) (str "tac")
      (by decide) (by decide)).1 (by decide)⟩

/-- C18: for every word `w` that contains an uppercase ASCII letter, every table and every
NUL-free line of user input, the query path of `main` (every character of the line made
lowercase, then `sortString`, then `compare`) never reports `w`: no outcome of the query
path names `w`, and for a query with a valid bucket index there is an outcome and it does
not name `w`. -/
theorem C18_uppercase_word_never_reported (sg : Bool) (t : Table) (w line : Str)
    (hw : ∃ c ∈ w, 65 ≤ c.val ∧ c.val ≤ 90) (hl : NulFree line) :
    (∀ out : List Out, queryPath sg t line = some out → Out.theWordIs w ∉ out) ∧
    (∀ (fuel : Nat) (out : List Out),
      menuStep sg fuel t line = MenuResult.compared out → Out.theWordIs w ∉ out) ∧
    ((0 ≤ string_hash sg (formatInput line) ∧ string_hash sg (formatInput line) < TABLE_SIZE) →
      ∃ out : List Out, queryPath sg t line = some out ∧ Out.theWordIs w ∉ out) := by
  have h : ∀ out : List Out, queryPath sg t line = some out → Out.theWordIs w ∉ out :=
    fun out hout => not_reported_of_upper sg t w line out hw hl hout
  refine ⟨h, ?_, ?_⟩
  · intro fuel out hstep
    unfold menuStep at hstep
    simp only at hstep
    split_ifs at hstep
    cases hc : compare sg t (sortString sg (formatInput line)) with
    | none => rw [hc] at hstep; cases hstep
    | some out1 =>
      rw [hc] at hstep
      cases hstep
      exact h _ hc
  · intro hv
    rw [← string_hash_sortString] at hv
    obtain ⟨i, hc, _⟩ := cellOf_of_valid _ hv
    have hq := compare_of_cell sg t (sortString sg (formatInput line)) i hc
    exact ⟨_, hq, h _ hq⟩

/-- C18, witness: the dictionary holds `Listen`; the input `Listen` is made lowercase and
finds nothing, although the stored word is the line itself. -/
theorem C18_uppercase_word_never_reported_witness :
    (∃ c ∈ str "Listen", 65 ≤ c.val ∧ c.val ≤ 90) ∧ NulFree (str "Listen") ∧
    (buildTable true [str "Listen"]).bind (fun t => queryPath true t (str "Listen")) =
      some [Out.noMatch] ∧
    queryPath true (groupTable true [str "Listen"]) (str "Listen") = some [Out.noMatch] ∧
    ((∀ out : List Out, queryPath true (groupTable true [str "Listen"]) (str "Listen") =
        some out → Out.theWordIs (str "Listen") ∉ out) ∧
      (∀ (fuel : Nat) (out : List Out),
        menuStep true fuel (groupTable true [str "Listen"]) (str "Listen") =
          MenuResult.compared out → Out.theWordIs (str "Listen") ∉ out) ∧
      ((0 ≤ string_hash true (formatInput (str "Listen")) ∧
          string_hash true (formatInput (str "Listen")) < TABLE_SIZE) →
        ∃ out : List Out, queryPath true (groupTable true [str "Listen"]) (str "Listen") =
          some out ∧ Out.theWordIs (str "Listen") ∉ out)) :=
  ⟨⟨76, by decide, by decide⟩, by decide, by decide, by decide,
    C18_uppercase_word_never_reported true (groupTable true [str "Listen"]) (str "Listen")
      (str "Listen") ⟨76, by decide, by decide⟩ (by decide)⟩

end WordUnscrambler
